import Mathlib

set_option linter.unusedVariables false
set_option linter.unnecessarySeqFocus false

/-!
Shallow embedding of the Mod-Vault Trello board application (src/app.js).

The first part models the in-memory V2 state shape

  state = { version: 2,
            lists: [{ id, title, cardIds: [] }, ...],
            cards: { [cardId]: { id, title, createdAt, category, dueDate } } }

as typed Lean structures (JavaScript objects keyed by card id become
association lists in key-insertion order), together with the Mutation API
(createList, renameList, deleteList, createCard, editCard, deleteCard,
moveCardToList).  Interactive inputs (prompt results, confirm dialogs) and
the random/clock generators uid() and nowISO() are passed in as explicit
arguments.  The second part models the dynamically-typed JSON codec
(normalizeImportedState, migrateFromOldState, importBoardFromFile) over a
JSON value type, with JavaScript property access, truthiness, typeof and
Object.entries semantics made explicit; a thrown TypeError is an
`Except.error`.
-/

/-- A V2 card: `{ id, title, createdAt, category, dueDate }`.  `dueDate` is a
string or `null` in the source; `none` models `null`. -/
structure Card where
  id : String
  title : String
  createdAt : String
  category : String
  dueDate : Option String
deriving Repr, DecidableEq

/-- A V2 list: `{ id, title, cardIds }`. -/
structure BoardList where
  id : String
  title : String
  cardIds : List String
deriving Repr, DecidableEq

/-- The V2 board state.  `cards` is a JavaScript object keyed by card id,
modelled as an association list in key-insertion order. -/
structure Board where
  version : Nat
  lists : List BoardList
  cards : List (String × Card)
deriving Repr, DecidableEq

/-- The keys of `CATEGORY_OPTIONS` in src/app.js. -/
def CATEGORY_KEYS : List String := ["assignment", "lab", "project", "mod", "unfinished"]

/-- JavaScript object property read `m[k]` on an object modelled as an
association list: `none` is `undefined`. -/
def assocLookup (m : List (String × α)) (k : String) : Option α :=
  (m.find? (fun kv => kv.1 == k)).map (fun kv => kv.2)

/-- JavaScript object property write `m[k] = v`: overwrite in place when the
key exists, otherwise append (insertion order is preserved). -/
def assocInsert (m : List (String × α)) (k : String) (v : α) : List (String × α) :=
  if m.any (fun kv => kv.1 == k) then
    m.map (fun kv => if kv.1 == k then (k, v) else kv)
  else m ++ [(k, v)]

/-- Update the element at index `i` in place (out-of-range indices leave the
list unchanged); models mutating one element of a JavaScript array of
objects. -/
def modifyIdx (xs : List α) (i : Nat) (f : α → α) : List α :=
  match xs, i with
  | [], _ => []
  | x :: rest, 0 => f x :: rest
  | x :: rest, Nat.succ n => x :: modifyIdx rest n f

/-- Index of the first element satisfying `p`; models
`Array.prototype.find` when combined with `modifyIdx` (the found element is
identified by its position, matching JS object identity). -/
def findIdxO (p : α → Bool) : List α → Option Nat
  | [] => none
  | x :: rest => if p x then some 0 else (findIdxO p rest).map (fun n => n + 1)

/-- The ASCII fragment of the whitespace class of JavaScript
`String.prototype.trim`. -/
def jsIsSpace (c : Char) : Bool :=
  c.toNat = 32 || c.toNat = 9 || c.toNat = 10 || c.toNat = 13 || c.toNat = 11 || c.toNat = 12

/-- `s.trim()` (ASCII whitespace), computed on the character list so that
it evaluates inside the kernel. -/
def jsTrim (s : String) : String :=
  String.mk (((s.data.dropWhile jsIsSpace).reverse.dropWhile jsIsSpace).reverse)

/-- `toLowerCase` of one character (ASCII letters). -/
def jsCharToLower (c : Char) : Char :=
  if 65 ≤ c.toNat ∧ c.toNat ≤ 90 then Char.ofNat (c.toNat + 32) else c

/-- `s.toLowerCase()` (ASCII), computed on the character list. -/
def jsToLower (s : String) : String := String.mk (s.data.map jsCharToLower)

/-! ## Mutation API (src/app.js lines 343-462) -/

/-- `createList(title)` (src/app.js:343): pushes
`{ id: uid("list"), title, cardIds: [] }`.  The generated id is the
`freshId` argument. -/
def createList (b : Board) (title freshId : String) : Board :=
  { b with lists := b.lists ++ [{ id := freshId, title := title, cardIds := [] }] }

/-- `renameList(listId)` (src/app.js:351): no-op when the list is not found,
the prompt is cancelled (`none`), or the trimmed reply is empty; otherwise
sets the title to the trimmed reply. -/
def renameList (b : Board) (listId : String) (promptResult : Option String) : Board :=
  match findIdxO (fun l => l.id == listId) b.lists with
  | none => b
  | some i =>
    match promptResult with
    | none => b
    | some next =>
      let cleaned := jsTrim next
      if cleaned = "" then b
      else { b with lists := modifyIdx b.lists i (fun l => { l with title := cleaned }) }

/-- `deleteList(listId)` (src/app.js:366): when found and confirmed, deletes
every card referenced by the list from `state.cards` and filters the list
out of `state.lists`. -/
def deleteList (b : Board) (listId : String) (confirmed : Bool) : Board :=
  match b.lists.find? (fun l => l.id == listId) with
  | none => b
  | some lst =>
    if confirmed then
      { b with
        cards := b.cards.filter (fun kv => !(lst.cardIds.contains kv.1)),
        lists := b.lists.filter (fun l => l.id != listId) }
    else b

/-- `createCard(listId, title, category, dueDate)` (src/app.js:382): no-op
when the list is not found; otherwise stores a new card under the generated
id (`freshId`, with `createdAt` = `now`) and pushes the id onto the list's
`cardIds`.  `category ?? "project"` and `dueDate ?? null` are modelled by
`Option.getD` and the `Option` itself. -/
def createCard (b : Board) (listId title : String) (category dueDate : Option String)
    (freshId now : String) : Board :=
  match findIdxO (fun l => l.id == listId) b.lists with
  | none => b
  | some i =>
    let card : Card :=
      { id := freshId, title := title, createdAt := now,
        category := category.getD "project", dueDate := dueDate }
    { b with
      cards := assocInsert b.cards freshId card,
      lists := modifyIdx b.lists i (fun l => { l with cardIds := l.cardIds ++ [freshId] }) }

/-- `editCard(cardId)` (src/app.js:401): no-op when the card is not found,
the title prompt is cancelled, or the trimmed title is empty.  Otherwise the
category prompt is trimmed and lower-cased and kept only when it matches
`CATEGORY_OPTIONS`; the due-date prompt is trimmed and an empty string
clears the due date. -/
def editCard (b : Board) (cardId : String)
    (titlePrompt catPrompt duePrompt : Option String) : Board :=
  match assocLookup b.cards cardId with
  | none => b
  | some card =>
    match titlePrompt with
    | none => b
    | some nextTitle =>
      let cleaned := jsTrim nextTitle
      if cleaned = "" then b
      else
        let cat := jsToLower (jsTrim (catPrompt.getD ""))
        let valid := if CATEGORY_KEYS.contains cat then cat else card.category
        let dueClean := jsTrim (duePrompt.getD "")
        let dueDate := if dueClean = "" then none else some dueClean
        { b with
          cards := assocInsert b.cards cardId
            { card with title := cleaned, category := valid, dueDate := dueDate } }

/-- `deleteCard(cardId)` (src/app.js:431): when found and confirmed, filters
the id out of every list's `cardIds` and deletes the card entry. -/
def deleteCard (b : Board) (cardId : String) (confirmed : Bool) : Board :=
  match assocLookup b.cards cardId with
  | none => b
  | some _ =>
    if confirmed then
      { b with
        lists := b.lists.map (fun l => { l with cardIds := l.cardIds.filter (fun x => x != cardId) }),
        cards := b.cards.filter (fun kv => kv.1 != cardId) }
    else b

/-- The `fromList` half of `moveCardToList` (src/app.js:452,456):
`state.lists.find(l => l.cardIds.includes(cardId))` identifies the first
list containing the card, and — when found —
`fromList.cardIds = fromList.cardIds.filter(id => id !== cardId)` rewrites
it in place (position-indexed update = JS object identity). -/
def moveFromLists (cardId : String) (lists : List BoardList) : List BoardList :=
  match findIdxO (fun l => l.cardIds.contains cardId) lists with
  | some fi => modifyIdx lists fi
      (fun l => { l with cardIds := l.cardIds.filter (fun x => x != cardId) })
  | none => lists

/-- The `toList` half of `moveCardToList` (src/app.js:457):
`if (!toList.cardIds.includes(cardId)) toList.cardIds.push(cardId)` — the
membership test reads the target *after* the `fromList` filter, exactly as
the aliased JS objects do, which this models by applying it to the already
updated list at the target's (stable) index `ti`. -/
def moveToLists (cardId : String) (ti : Nat) (lists : List BoardList) : List BoardList :=
  modifyIdx lists ti
    (fun l => if l.cardIds.contains cardId then l
              else { l with cardIds := l.cardIds ++ [cardId] })

/-- `moveCardToList(cardId, targetListId)` (src/app.js:449): no-op when the
card or the target list is missing; otherwise remove the id from the first
list containing it and push it onto the target unless (post-removal)
present. -/
def moveCardToList (b : Board) (cardId targetListId : String) : Board :=
  if (assocLookup b.cards cardId).isNone then b
  else
    match findIdxO (fun l => l.id == targetListId) b.lists with
    | none => b
    | some ti => { b with lists := moveToLists cardId ti (moveFromLists cardId b.lists) }

/-! ## Mutation sequences and the referential-integrity invariant -/

/-- One Mutation API call with all its interactive/generated inputs made
explicit: prompt replies (`none` = cancelled), confirm-dialog results, and
the ids/timestamps produced by `uid()`/`nowISO()`. -/
inductive Mutation where
  | createList (title freshId : String)
  | renameList (listId : String) (promptResult : Option String)
  | deleteList (listId : String) (confirmed : Bool)
  | createCard (listId title : String) (category dueDate : Option String) (freshId now : String)
  | editCard (cardId : String) (titlePrompt catPrompt duePrompt : Option String)
  | deleteCard (cardId : String) (confirmed : Bool)
  | moveCardToList (cardId targetListId : String)
deriving Repr, DecidableEq

/-- Apply one Mutation API call to the board. -/
def applyMutation (b : Board) : Mutation → Board
  | .createList t f => createList b t f
  | .renameList i p => renameList b i p
  | .deleteList i c => deleteList b i c
  | .createCard l t c d f n => createCard b l t c d f n
  | .editCard c tp cp dp => editCard b c tp cp dp
  | .deleteCard c cf => deleteCard b c cf
  | .moveCardToList c t => moveCardToList b c t

/-- Apply a sequence of Mutation API calls left to right. -/
def applyAll (b : Board) : List Mutation → Board
  | [] => b
  | m :: ms => applyAll (applyMutation b m) ms

/-- The id produced by `uid()` for a `createCard` call is fresh: it is not
already a key of `state.cards` (the only generated id whose freshness the
integrity invariant depends on). -/
def freshOKB (b : Board) : Mutation → Bool
  | .createCard _ _ _ _ freshId _ => (assocLookup b.cards freshId).isNone
  | _ => true

/-- Every generated card id in the sequence is fresh for the state it is
generated in. -/
def stepsFresh : Board → List Mutation → Bool
  | _, [] => true
  | b, m :: ms => freshOKB b m && stepsFresh (applyMutation b m) ms

/-- Referential integrity: every id in every list's `cardIds` is a key of
`state.cards`, and each card id occurs in at most one list's `cardIds`. -/
def integrityB (b : Board) : Bool :=
  b.lists.all fun l => l.cardIds.all fun cid =>
    (assocLookup b.cards cid).isSome &&
    decide (List.countP (fun l2 => l2.cardIds.contains cid) b.lists ≤ 1)

/-- Propositional form of `integrityB`. -/
def IntegrityP (b : Board) : Prop :=
  ∀ l ∈ b.lists, ∀ cid ∈ l.cardIds,
    (assocLookup b.cards cid).isSome = true ∧
    List.countP (fun l2 => l2.cardIds.contains cid) b.lists ≤ 1

/-! ## JSON values and the import/export/migration codec

The codec functions of src/app.js work on dynamically-typed values produced
by `JSON.parse`.  `JValue` is the type of such values; JavaScript semantics
(truthiness, `typeof`, property reads throwing on `null`, `??`,
`Object.entries`) are modelled explicitly below. -/

/-- A JSON value as produced by `JSON.parse`: object fields are kept as an
association list in document order (JSON.parse keeps no duplicate keys). -/
inductive JValue where
  | null
  | bool (b : Bool)
  | num (n : Int)
  | str (s : String)
  | arr (elems : List JValue)
  | obj (fields : List (String × JValue))
deriving Repr, Inhabited

/-- JavaScript truthiness of a JSON value. -/
def jsTruthy : JValue → Bool
  | .null => false
  | .bool b => b
  | .num n => n != 0
  | .str s => s != ""
  | .arr _ => true
  | .obj _ => true

/-- `typeof v === "object"` for a JSON value: true exactly for `null`,
arrays and objects. -/
def jsTypeofObject : JValue → Bool
  | .null => true
  | .arr _ => true
  | .obj _ => true
  | _ => false

/-- First-match lookup in an object's field list. -/
def jPairsLookup : List (String × JValue) → String → Option JValue
  | [], _ => none
  | (k1, v) :: rest, k => if k = k1 then some v else jPairsLookup rest k

/-- JavaScript property read `v.k` for a value already known not to be
`null` (reading a property of `null` throws a TypeError — the functions
below match on `.null` first at every read site to model exactly that):
the named property of a non-object value is `undefined` (`none`). -/
def jFieldD : JValue → String → Option JValue
  | .obj fields, k => jPairsLookup fields k
  | _, _ => none

/-- The `??` operator: keep `a` unless it is `undefined` (`none`) or
`null`. -/
def jNullish (a : Option JValue) (d : JValue) : JValue :=
  match a with
  | none => d
  | some .null => d
  | some v => v

/-- Helper for `Object.entries` on array-like values: index keys. -/
def jsEntriesIdx (i : Nat) : List JValue → List (String × JValue)
  | [] => []
  | x :: rest => (toString i, x) :: jsEntriesIdx (i + 1) rest

/-- `Object.entries(v)` for a non-null value: own enumerable entries —
object fields in order, array elements under their stringified indices,
string characters likewise, nothing for primitives. -/
def jsEntries : JValue → List (String × JValue)
  | .obj fields => fields
  | .arr xs => jsEntriesIdx 0 xs
  | .str s => jsEntriesIdx 0 (s.data.map (fun c => JValue.str (String.singleton c)))
  | _ => []

/-- Building a JavaScript object by successive `o[k] = v` assignments
starting from `{}`. -/
def buildObj (entries : List (String × JValue)) : List (String × JValue) :=
  entries.foldl (fun acc kv => assocInsert acc kv.1 kv.2) []

/-- The per-list rewrite shared verbatim by `normalizeImportedState`
(src/app.js:509) and `migrateFromOldState` (src/app.js:107):
`{ id: l.id ?? uid("list"), title: l.title ?? "Untitled",
   cardIds: Array.isArray(l.cardIds) ? l.cardIds.slice() : [] }`.
The generated id is passed in as `freshId`; reading a property of a null
element throws. -/
def normList (freshId : String) (l : JValue) : Except String JValue :=
  match l with
  | .null => .error "TypeError: cannot read properties of null"
  | lv =>
    .ok (.obj [("id", jNullish (jFieldD lv "id") (.str freshId)),
               ("title", jNullish (jFieldD lv "title") (.str "Untitled")),
               ("cardIds", match jFieldD lv "cardIds" with
                           | some (.arr xs) => .arr xs
                           | _ => .arr [])])

/-- `lists.map(l => ...)` over the list array; `fresh i` is the id `uid()`
would produce for the element at index `i` when it lacks one. -/
def normLists (fresh : Nat → String) : Nat → List JValue → Except String (List JValue)
  | _, [] => .ok []
  | i, l :: rest =>
    match normList (fresh i) l with
    | .error e => .error e
    | .ok l2 =>
      match normLists fresh (i + 1) rest with
      | .error e => .error e
      | .ok rest2 => .ok (l2 :: rest2)

/-- The per-card rewrite of `normalizeImportedState` (src/app.js:517): keep
the id (or use the mapping key), default the title, default `createdAt` to
the current timestamp, keep the category only when it is one of
`CATEGORY_OPTIONS` (else `"project"`), keep `dueDate` only when it is a
string (else `null`). -/
def normCard (now : String) (id : String) (c : JValue) : Except String (String × JValue) :=
  match c with
  | .null => .error "TypeError: cannot read properties of null"
  | cv =>
    .ok (id, .obj [("id", jNullish (jFieldD cv "id") (.str id)),
                   ("title", jNullish (jFieldD cv "title") (.str "Untitled")),
                   ("createdAt", jNullish (jFieldD cv "createdAt") (.str now)),
                   ("category", match jFieldD cv "category" with
                                | some (.str s) =>
                                  if CATEGORY_KEYS.contains s then .str s else .str "project"
                                | _ => .str "project"),
                   ("dueDate", match jFieldD cv "dueDate" with
                               | some (.str s) => .str s
                               | _ => .null)])

/-- `for (const [id, c] of Object.entries(cards))` in
`normalizeImportedState`. -/
def normCards (now : String) : List (String × JValue) → Except String (List (String × JValue))
  | [] => .ok []
  | (id, c) :: rest =>
    match normCard now id c with
    | .error e => .error e
    | .ok e2 =>
      match normCards now rest with
      | .error e => .error e
      | .ok rest2 => .ok (e2 :: rest2)

/-- `normalizeImportedState(parsed)` (src/app.js:500): throw `"Invalid
file"` when the parsed value is falsy or not of `typeof === "object"`;
default `lists` to `[]` unless an array, default `cards` to `{}` unless a
truthy object; rebuild every list and card; the result carries
`version: 2`. -/
def normalizeImportedState (fresh : Nat → String) (now : String) (parsed : JValue) :
    Except String JValue :=
  if !(jsTruthy parsed) || !(jsTypeofObject parsed) then .error "Invalid file"
  else
    -- the guard leaves only (truthy, non-null) arrays and objects, so the
    -- property reads below cannot throw
    let listsRaw : List JValue := match jFieldD parsed "lists" with
      | some (.arr xs) => xs
      | _ => []
    let cardsV : JValue := match jFieldD parsed "cards" with
      | some cv => if jsTruthy cv && jsTypeofObject cv then cv else .obj []
      | none => .obj []
    match normLists fresh 0 listsRaw, normCards now (jsEntries cardsV) with
    | .ok lists2, .ok entries2 =>
      .ok (.obj [("version", .num 2), ("lists", .arr lists2),
                 ("cards", .obj (buildObj entries2))])
    | .error e, _ => .error e
    | _, .error e => .error e

/-- `importBoardFromFile(file)` (src/app.js:481): `parseResult` is the
outcome of `JSON.parse` on the file text (`none` when the text is not valid
JSON and `JSON.parse` throws).  Every exception — the parse failure or the
normalizer's throw — lands in the one `catch`: the current state is kept
and failure is signalled (alert + toast).  Returns the resulting state and
a success flag. -/
def importBoardFromFile (fresh : Nat → String) (now : String)
    (parseResult : Option JValue) (cur : JValue) : JValue × Bool :=
  match parseResult with
  | none => (cur, false)
  | some parsed =>
    match normalizeImportedState fresh now parsed with
    | .error _ => (cur, false)
    | .ok b => (b, true)

/-- The per-card rewrite of `migrateFromOldState` (src/app.js:115): keep
id/title/createdAt with defaults, force `category: "project"` and
`dueDate: null`. -/
def migCard (now : String) (id : String) (c : JValue) : Except String (String × JValue) :=
  match c with
  | .null => .error "TypeError: cannot read properties of null"
  | cv =>
    .ok (id, .obj [("id", jNullish (jFieldD cv "id") (.str id)),
                   ("title", jNullish (jFieldD cv "title") (.str "Untitled")),
                   ("createdAt", jNullish (jFieldD cv "createdAt") (.str now)),
                   ("category", .str "project"),
                   ("dueDate", .null)])

/-- `for (const [id, card] of Object.entries(old.cards))` in
`migrateFromOldState`. -/
def migCards (now : String) : List (String × JValue) → Except String (List (String × JValue))
  | [] => .ok []
  | (id, c) :: rest =>
    match migCard now id c with
    | .error e => .error e
    | .ok e2 =>
      match migCards now rest with
      | .error e => .error e
      | .ok rest2 => .ok (e2 :: rest2)

/-- `migrateFromOldState(old)` (src/app.js:102): `return null` (`.ok none`)
when `old`, `old.lists` or `old.cards` is falsy; otherwise build the V2
board.  `old.lists.map(...)` throws a TypeError (`.error`) when `old.lists`
is truthy but not an array — nothing in the initialization chain catches
it.  The saving/toast side effects are external to the state
transformation. -/
def migrateFromOldState (fresh : Nat → String) (now : String) (old : JValue) :
    Except String (Option JValue) :=
  if !(jsTruthy old) then .ok none
  else
    -- old is truthy (hence not null): the two property reads cannot throw
    match jFieldD old "lists" with
    | none => .ok none
    | some lv =>
      if !(jsTruthy lv) then .ok none
      else
        match jFieldD old "cards" with
        | none => .ok none
        | some cv =>
          if !(jsTruthy cv) then .ok none
          else
            match lv with
            | .arr ls =>
              match normLists fresh 0 ls, migCards now (jsEntries cv) with
              | .ok lists2, .ok entries2 =>
                .ok (some (.obj [("version", .num 2), ("lists", .arr lists2),
                                 ("cards", .obj (buildObj entries2))]))
              | .error e, _ => .error e
              | _, .error e => .error e
            | _ => .error "TypeError: old.lists.map is not a function"

/-! ## Serialization (exportBoard, src/app.js:465)

`exportBoard` writes `JSON.stringify(state, null, 2)` with no
transformation, so re-parsing the exported text yields exactly the JSON
image of the state; `toJson` below is that image (object fields in the
literal/insertion order the source constructs them in). -/

/-- JSON image of a card, field order as in the object literals of
src/app.js. -/
def Card.toJson (c : Card) : JValue :=
  .obj [("id", .str c.id), ("title", .str c.title), ("createdAt", .str c.createdAt),
        ("category", .str c.category),
        ("dueDate", match c.dueDate with | some s => .str s | none => .null)]

/-- JSON image of a list. -/
def BoardList.toJson (l : BoardList) : JValue :=
  .obj [("id", .str l.id), ("title", .str l.title),
        ("cardIds", .arr (l.cardIds.map JValue.str))]

/-- JSON image of the whole board: the document `exportBoard` downloads. -/
def Board.toJson (b : Board) : JValue :=
  .obj [("version", .num (b.version : Int)),
        ("lists", .arr (b.lists.map BoardList.toJson)),
        ("cards", .obj (b.cards.map (fun kv => (kv.1, Card.toJson kv.2))))]


/-! ## Auxiliary definitions: integrity as a JSON-document predicate, and
concrete boards and inputs used by the claim theorems and witnesses -/

/-- A concrete starting board (empty) for the C1 witness. -/
def witBoard : Board := { version := 2, lists := [], cards := [] }

/-- A concrete mutation sequence touching every Mutation API operation. -/
def witMuts : List Mutation :=
  [.createList "Todo" "L1",
   .createCard "L1" "task one" (some "lab") none "c1" "2024-01-01T00:00:00.000Z",
   .createList "Done" "L2",
   .createCard "L1" "task two" none (some "2024-02-02") "c2" "2024-01-02T00:00:00.000Z",
   .moveCardToList "c1" "L2",
   .editCard "c1" (some "task one b") (some "mod") (some ""),
   .renameList "L2" (some "Done now"),
   .deleteCard "c2" true,
   .deleteList "L1" true]

/-- A concrete board for the C9 witness: three lists, the card sits in the
middle one. -/
def wit9B : Board :=
  { version := 2,
    lists := [{ id := "L0", title := "A", cardIds := ["c9"] },
              { id := "L1", title := "B", cardIds := ["c1"] },
              { id := "L2", title := "C", cardIds := [] }],
    cards := [("c1", { id := "c1", title := "t", createdAt := "n",
                       category := "project", dueDate := none }),
              ("c9", { id := "c9", title := "u", createdAt := "n",
                       category := "lab", dueDate := none })] }

/-- A concrete board for the C5 witness. -/
def wit5B : Board :=
  { version := 2,
    lists := [{ id := "LA", title := "A", cardIds := ["c1", "c2"] },
              { id := "LB", title := "B", cardIds := ["c3"] }],
    cards := [("c1", { id := "c1", title := "x", createdAt := "n",
                       category := "project", dueDate := none }),
              ("c2", { id := "c2", title := "y", createdAt := "n",
                       category := "lab", dueDate := some "2024-03-03" }),
              ("c3", { id := "c3", title := "z", createdAt := "n",
                       category := "mod", dueDate := none })] }

/-- A board whose single list "L" holds ["c1", "c2"], for the C4
counterexample. -/
def wit4B : Board :=
  { version := 2,
    lists := [{ id := "L", title := "T", cardIds := ["c1", "c2"] }],
    cards := [("c1", { id := "c1", title := "t", createdAt := "n",
                       category := "project", dueDate := none }),
              ("c2", { id := "c2", title := "u", createdAt := "n",
                       category := "lab", dueDate := none })] }

/-- The net per-element effect of `moveCardToList` when the source and the
target are the same list at index `j`: the filter runs first, so the later
membership test always fails and the id is always re-appended. -/
def moveStep (cardId : String) (x : BoardList) : BoardList :=
  if (x.cardIds.filter (fun y => y != cardId)).contains cardId then
    { x with cardIds := x.cardIds.filter (fun y => y != cardId) }
  else { x with cardIds := x.cardIds.filter (fun y => y != cardId) ++ [cardId] }

/-- A one-card board whose card has category `lab`, for the C8
counterexample and witness. -/
def wit8B : Board :=
  { version := 2,
    lists := [{ id := "L", title := "T", cardIds := ["c1"] }],
    cards := [("c1", { id := "c1", title := "t", createdAt := "n",
                       category := "lab", dueDate := none })] }

/-- Referential integrity read off a V2 JSON document: every string id in
every list's `cardIds` is a key of the `cards` object. -/
def jIntegrity (v : JValue) : Bool :=
  match jFieldD v "lists", jFieldD v "cards" with
  | some (.arr ls), some (.obj cs) =>
    ls.all fun l =>
      match jFieldD l "cardIds" with
      | some (.arr ids) =>
        ids.all fun idv =>
          match idv with
          | .str s => (jPairsLookup cs s).isSome
          | _ => false
      | _ => true
  | _, _ => false

/-- The import input whose top-level JSON value is the empty array — what
`JSON.parse` returns for the text "[]". -/
def wit3In : JValue := JValue.arr []

/-- The non-empty current board state for the C3 counterexample. -/
def wit3Cur : JValue := Board.toJson wit5B

/-- An import document whose list references a card id ("ghost") absent
from the cards object. -/
def wit10In : JValue :=
  .obj [("lists", .arr [.obj [("id", .str "L"), ("title", .str "T"),
                              ("cardIds", .arr [.str "ghost"])]]),
        ("cards", .obj [])]

/-- The board `normalizeImportedState` produces for `wit10In`. -/
def wit10Out : JValue :=
  .obj [("version", .num 2),
        ("lists", .arr [.obj [("id", .str "L"), ("title", .str "T"),
                              ("cardIds", .arr [.str "ghost"])]]),
        ("cards", .obj [])]

/-- The legacy value `{lists: 5, cards: {}}`: present, with truthy `lists`
and `cards` fields, but `lists` is not an array. -/
def wit7Bad : JValue := .obj [("lists", .num 5), ("cards", .obj [])]
/-! ## Helper lemmas: association lists -/

theorem integrityB_iff {b : Board} : integrityB b = true ↔ IntegrityP b := by
  simp [integrityB, IntegrityP, List.all_eq_true, Bool.and_eq_true, decide_eq_true_eq]


theorem assocLookup_nil (k : String) : assocLookup ([] : List (String × α)) k = none := rfl

theorem assocLookup_cons (k1 : String) (v : α) (rest : List (String × α)) (k : String) :
    assocLookup ((k1, v) :: rest) k = if k1 = k then some v else assocLookup rest k := by
  by_cases h : k1 = k
  · subst h
    simp [assocLookup, List.find?_cons_of_pos]
  · rw [if_neg h]
    unfold assocLookup
    rw [List.find?_cons_of_neg _ (by simp [h])]

theorem assocLookup_isSome_iff_any (m : List (String × α)) (k : String) :
    (assocLookup m k).isSome = m.any (fun kv => kv.1 == k) := by
  induction m with
  | nil => rfl
  | cons kv rest ih =>
    obtain ⟨k1, v⟩ := kv
    by_cases h : k1 = k <;> simp [assocLookup_cons, h, ← ih]

theorem assocLookup_map_replace_ne {m : List (String × α)} {k k' : String} {v : α}
    (h : k' ≠ k) :
    assocLookup (m.map (fun kv => if kv.1 == k then (k, v) else kv)) k' = assocLookup m k' := by
  induction m with
  | nil => rfl
  | cons kv rest ih =>
    obtain ⟨k1, v1⟩ := kv
    simp only [List.map_cons]
    by_cases h1 : k1 = k
    · subst h1
      rw [if_pos (by simp)]
      rw [assocLookup_cons, assocLookup_cons]
      rw [if_neg (fun hh => h hh.symm), if_neg (fun hh => h hh.symm)]
      exact ih
    · rw [if_neg (by simp [h1])]
      rw [assocLookup_cons, assocLookup_cons]
      by_cases h2 : k1 = k'
      · rw [if_pos h2, if_pos h2]
      · rw [if_neg h2, if_neg h2]
        exact ih

theorem assocLookup_map_replace_self {m : List (String × α)} {k : String} {v : α}
    (h : m.any (fun kv => kv.1 == k) = true) :
    assocLookup (m.map (fun kv => if kv.1 == k then (k, v) else kv)) k = some v := by
  induction m with
  | nil => simp at h
  | cons kv rest ih =>
    obtain ⟨k1, v1⟩ := kv
    simp only [List.map_cons]
    by_cases h1 : k1 = k
    · subst h1
      rw [if_pos (by simp)]
      rw [assocLookup_cons, if_pos rfl]
    · rw [if_neg (by simp [h1])]
      rw [assocLookup_cons, if_neg h1]
      simp only [List.any_cons, Bool.or_eq_true, beq_iff_eq] at h
      rcases h with h | h
      · exact absurd h h1
      · exact ih h

theorem assocLookup_append (m m' : List (String × α)) (k : String) :
    assocLookup (m ++ m') k =
      match assocLookup m k with
      | some v => some v
      | none => assocLookup m' k := by
  induction m with
  | nil => simp [assocLookup_nil]
  | cons kv rest ih =>
    obtain ⟨k1, v1⟩ := kv
    by_cases h : k1 = k <;>
      simp [List.cons_append, assocLookup_cons, h, ih]

theorem assocLookup_insert (m : List (String × α)) (k : String) (v : α) (k' : String) :
    assocLookup (assocInsert m k v) k' = if k' = k then some v else assocLookup m k' := by
  unfold assocInsert
  by_cases ha : m.any (fun kv => kv.1 == k) = true
  · rw [if_pos ha]
    by_cases hk : k' = k
    · subst hk
      rw [if_pos rfl, assocLookup_map_replace_self ha]
    · rw [if_neg hk, assocLookup_map_replace_ne hk]
  · rw [if_neg ha]
    rw [assocLookup_append]
    have hnone : assocLookup m k = none := by
      cases hl : assocLookup m k with
      | none => rfl
      | some v0 =>
        have h2 : (assocLookup m k).isSome = true := by rw [hl]; rfl
        rw [assocLookup_isSome_iff_any] at h2
        exact absurd h2 ha
    by_cases hk : k' = k
    · subst hk
      rw [hnone]
      simp [assocLookup_cons]
    · rw [if_neg hk]
      cases hl : assocLookup m k' with
      | some v0 => simp
      | none =>
        simp only
        rw [assocLookup_cons, if_neg (fun hh => hk hh.symm)]
        rfl

theorem assocLookup_filter_key (m : List (String × α)) (q : String → Bool) (k : String) :
    assocLookup (m.filter (fun kv => q kv.1)) k =
      if q k = true then assocLookup m k else none := by
  induction m with
  | nil => simp [assocLookup_nil]
  | cons kv rest ih =>
    obtain ⟨k1, v1⟩ := kv
    by_cases h : k1 = k
    · subst h
      by_cases hq : q k1 = true <;>
        simp [List.filter_cons, hq, assocLookup_cons, ih]
    · by_cases hq : q k1 = true <;>
        simp [List.filter_cons, hq, assocLookup_cons, h, ih]

/-! ## Helper lemmas: `modifyIdx` and `findIdxO` -/

theorem length_modifyIdx (xs : List α) (i : Nat) (f : α → α) :
    (modifyIdx xs i f).length = xs.length := by
  induction xs generalizing i with
  | nil => rfl
  | cons x rest ih =>
    cases i with
    | zero => rfl
    | succ n => simp [modifyIdx, ih]

theorem get?_modifyIdx (xs : List α) (i : Nat) (f : α → α) (j : Nat) :
    (modifyIdx xs i f).get? j = if i = j then (xs.get? j).map f else xs.get? j := by
  induction xs generalizing i j with
  | nil => simp [modifyIdx]
  | cons x rest ih =>
    cases i with
    | zero =>
      cases j with
      | zero => simp [modifyIdx]
      | succ m => simp [modifyIdx]
    | succ n =>
      cases j with
      | zero => simp [modifyIdx]
      | succ m =>
        simp only [modifyIdx, List.get?_cons_succ, ih]
        by_cases h : n = m
        · simp [h]
        · simp [h, fun hh => h (Nat.succ_injective hh)]

theorem mem_modifyIdx {xs : List α} {i : Nat} {f : α → α} {y : α}
    (h : y ∈ modifyIdx xs i f) : y ∈ xs ∨ ∃ x ∈ xs, y = f x := by
  induction xs generalizing i with
  | nil => simp [modifyIdx] at h
  | cons x rest ih =>
    cases i with
    | zero =>
      simp only [modifyIdx, List.mem_cons] at h
      rcases h with h | h
      · exact Or.inr ⟨x, List.mem_cons_self x rest, h⟩
      · exact Or.inl (List.mem_cons_of_mem x h)
    | succ n =>
      simp only [modifyIdx, List.mem_cons] at h
      rcases h with h | h
      · exact Or.inl (h ▸ List.mem_cons_self x rest)
      · rcases ih h with h2 | ⟨x2, hx2, he⟩
        · exact Or.inl (List.mem_cons_of_mem x h2)
        · exact Or.inr ⟨x2, List.mem_cons_of_mem x hx2, he⟩

theorem countP_modifyIdx_eq {p : α → Bool} {f : α → α}
    (hpf : ∀ x, p (f x) = p x) (xs : List α) (i : Nat) :
    List.countP p (modifyIdx xs i f) = List.countP p xs := by
  induction xs generalizing i with
  | nil => rfl
  | cons x rest ih =>
    cases i with
    | zero => simp [modifyIdx, List.countP_cons, hpf]
    | succ n => simp [modifyIdx, List.countP_cons, ih]

theorem countP_modifyIdx_le (p : α → Bool) (f : α → α) (xs : List α) (i : Nat) :
    List.countP p (modifyIdx xs i f) ≤ List.countP p xs + 1 := by
  induction xs generalizing i with
  | nil => simp [modifyIdx]
  | cons x rest ih =>
    cases i with
    | zero =>
      simp only [modifyIdx, List.countP_cons]
      by_cases h1 : p (f x) = true <;> by_cases h2 : p x = true <;> simp [h1, h2] <;> omega
    | succ n =>
      simp only [modifyIdx, List.countP_cons]
      have := ih n
      omega

theorem map_modifyIdx {g : α → β} {f : α → α}
    (hgf : ∀ x, g (f x) = g x) (xs : List α) (i : Nat) :
    (modifyIdx xs i f).map g = xs.map g := by
  induction xs generalizing i with
  | nil => rfl
  | cons x rest ih =>
    cases i with
    | zero => simp [modifyIdx, hgf]
    | succ n => simp [modifyIdx, ih]

theorem modifyIdx_modifyIdx (xs : List α) (i : Nat) (f g : α → α) :
    modifyIdx (modifyIdx xs i f) i g = modifyIdx xs i (fun x => g (f x)) := by
  induction xs generalizing i with
  | nil => rfl
  | cons x rest ih =>
    cases i with
    | zero => rfl
    | succ n => simp [modifyIdx, ih]

theorem modifyIdx_congr_at {xs : List α} {i : Nat} {x : α} {f g : α → α}
    (hx : xs.get? i = some x) (hfg : f x = g x) :
    modifyIdx xs i f = modifyIdx xs i g := by
  induction xs generalizing i with
  | nil => simp at hx
  | cons x0 rest ih =>
    cases i with
    | zero =>
      simp only [List.get?_cons_zero, Option.some.injEq] at hx
      subst hx
      simp [modifyIdx, hfg]
    | succ n =>
      simp only [List.get?_cons_succ] at hx
      simp [modifyIdx, ih hx]

theorem modifyIdx_id (xs : List α) (i : Nat) : modifyIdx xs i (fun x => x) = xs := by
  induction xs generalizing i with
  | nil => rfl
  | cons x rest ih =>
    cases i with
    | zero => rfl
    | succ n => simp [modifyIdx, ih]

theorem nodup_map_get?_inj {f : α → β} {xs : List α}
    (hnd : (xs.map f).Nodup) {i j : Nat} {x y : α}
    (hx : xs.get? i = some x) (hy : xs.get? j = some y) (hf : f x = f y) : i = j := by
  induction xs generalizing i j with
  | nil => simp at hx
  | cons z rest ih =>
    simp only [List.map_cons, List.nodup_cons] at hnd
    cases i with
    | zero =>
      cases j with
      | zero => rfl
      | succ m =>
        simp only [List.get?_cons_zero, Option.some.injEq] at hx
        subst hx
        simp only [List.get?_cons_succ] at hy
        exfalso
        exact hnd.1 (hf ▸ List.mem_map_of_mem f (List.get?_mem hy))
    | succ n =>
      cases j with
      | zero =>
        simp only [List.get?_cons_zero, Option.some.injEq] at hy
        subst hy
        simp only [List.get?_cons_succ] at hx
        exfalso
        exact hnd.1 (hf ▸ List.mem_map_of_mem f (List.get?_mem hx))
      | succ m =>
        simp only [List.get?_cons_succ] at hx hy
        rw [ih hnd.2 hx hy]

theorem findIdxO_cons (p : α → Bool) (x : α) (rest : List α) :
    findIdxO p (x :: rest) =
      if p x then some 0 else (findIdxO p rest).map (fun n => n + 1) := rfl

theorem findIdxO_cons_neg {p : α → Bool} {x : α} {rest : List α} {i : Nat}
    (hp : ¬ p x = true) (h : findIdxO p (x :: rest) = some i) :
    ∃ n, findIdxO p rest = some n ∧ i = n + 1 := by
  rw [findIdxO_cons, if_neg hp] at h
  cases hfi : findIdxO p rest with
  | none => rw [hfi] at h; simp at h
  | some n =>
    rw [hfi] at h
    simp only [Option.map_some', Option.some.injEq] at h
    exact ⟨n, rfl, h.symm⟩

theorem findIdxO_eq_none_iff (p : α → Bool) (xs : List α) :
    findIdxO p xs = none ↔ ∀ x ∈ xs, p x = false := by
  induction xs with
  | nil => simp [findIdxO]
  | cons x rest ih =>
    by_cases h : p x = true
    · simp [findIdxO, h]
    · simp only [Bool.not_eq_true] at h
      simp [findIdxO, h, ih]

theorem findIdxO_get {p : α → Bool} {xs : List α} {i : Nat}
    (h : findIdxO p xs = some i) : ∃ x, xs.get? i = some x ∧ p x = true := by
  induction xs generalizing i with
  | nil => simp [findIdxO] at h
  | cons x rest ih =>
    by_cases hp : p x = true
    · simp only [findIdxO, hp, if_true, Option.some.injEq] at h
      subst h
      exact ⟨x, rfl, hp⟩
    · obtain ⟨n, hn, hni⟩ := findIdxO_cons_neg hp h
      subst hni
      obtain ⟨y, hy, hpy⟩ := ih hn
      exact ⟨y, by simpa using hy, hpy⟩

theorem findIdxO_first {p : α → Bool} {xs : List α} {i : Nat}
    (h : findIdxO p xs = some i) :
    ∀ j, j < i → ∀ y, xs.get? j = some y → p y = false := by
  induction xs generalizing i with
  | nil => simp [findIdxO] at h
  | cons x rest ih =>
    by_cases hp : p x = true
    · simp only [findIdxO, hp, if_true, Option.some.injEq] at h
      subst h
      intro j hj
      exact absurd hj (Nat.not_lt_zero j)
    · obtain ⟨n, hn, hni⟩ := findIdxO_cons_neg hp h
      subst hni
      intro j hj y hy
      cases j with
      | zero =>
        simp only [List.get?_cons_zero, Option.some.injEq] at hy
        subst hy
        simpa using hp
      | succ m =>
        simp only [List.get?_cons_succ] at hy
        exact ih hn m (by omega) y hy

theorem findIdxO_eq_some_intro {p : α → Bool} {xs : List α} {i : Nat} {x : α}
    (hx : xs.get? i = some x) (hp : p x = true)
    (hfirst : ∀ j, j < i → ∀ y, xs.get? j = some y → p y = false) :
    findIdxO p xs = some i := by
  induction xs generalizing i with
  | nil => simp at hx
  | cons x0 rest ih =>
    cases i with
    | zero =>
      simp only [List.get?_cons_zero, Option.some.injEq] at hx
      subst hx
      simp [findIdxO, hp]
    | succ n =>
      have h0 : p x0 = false := hfirst 0 (Nat.succ_pos n) x0 rfl
      simp only [List.get?_cons_succ] at hx
      have := ih hx (fun j hj y hy => hfirst (j + 1) (by omega) y (by simpa using hy))
      simp [findIdxO, h0, this]

theorem findIdxO_comp (q : β → Bool) (g : α → β) (xs : List α) :
    findIdxO (fun x => q (g x)) xs = findIdxO q (xs.map g) := by
  induction xs with
  | nil => rfl
  | cons x rest ih => simp [findIdxO, ih]

/-! ## Helper lemmas: counting -/

theorem two_le_length_of_mem_ne {xs : List α} {x y : α}
    (hx : x ∈ xs) (hy : y ∈ xs) (hne : x ≠ y) : 2 ≤ xs.length := by
  induction xs with
  | nil => simp at hx
  | cons z rest ih =>
    rcases List.mem_cons.mp hx with rfl | hx2
    · rcases List.mem_cons.mp hy with rfl | hy2
      · exact absurd rfl hne
      · have := List.length_pos_of_mem hy2
        simp only [List.length_cons]
        omega
    · have := List.length_pos_of_mem hx2
      simp only [List.length_cons]
      omega

theorem two_le_countP {p : α → Bool} {xs : List α} {x y : α}
    (hx : x ∈ xs) (hy : y ∈ xs) (hne : x ≠ y)
    (hpx : p x = true) (hpy : p y = true) : 2 ≤ List.countP p xs := by
  rw [List.countP_eq_length_filter]
  exact two_le_length_of_mem_ne (List.mem_filter.mpr ⟨hx, hpx⟩)
    (List.mem_filter.mpr ⟨hy, hpy⟩) hne

theorem countP_le_one_pos_unique {p : α → Bool} {xs : List α}
    (hle : List.countP p xs ≤ 1) {i j : Nat} {x y : α}
    (hx : xs.get? i = some x) (hy : xs.get? j = some y)
    (hpx : p x = true) (hpy : p y = true) : i = j := by
  induction xs generalizing i j with
  | nil => simp at hx
  | cons z rest ih =>
    rw [List.countP_cons] at hle
    cases i with
    | zero =>
      cases j with
      | zero => rfl
      | succ m =>
        simp only [List.get?_cons_zero, Option.some.injEq] at hx
        subst hx
        simp only [List.get?_cons_succ] at hy
        rw [hpx] at hle
        simp only [if_true] at hle
        have hrest : List.countP p rest = 0 := by omega
        rw [List.countP_eq_zero] at hrest
        exact absurd hpy (by simp [hrest y (List.get?_mem hy)])
    | succ n =>
      cases j with
      | zero =>
        simp only [List.get?_cons_zero, Option.some.injEq] at hy
        subst hy
        simp only [List.get?_cons_succ] at hx
        rw [hpy] at hle
        simp only [if_true] at hle
        have hrest : List.countP p rest = 0 := by omega
        rw [List.countP_eq_zero] at hrest
        exact absurd hpx (by simp [hrest x (List.get?_mem hx)])
      | succ m =>
        simp only [List.get?_cons_succ] at hx hy
        have : List.countP p rest ≤ 1 := by
          by_cases hz : p z = true
          · rw [if_pos hz] at hle; omega
          · rw [if_neg hz] at hle; omega
        rw [ih this hx hy]

theorem findIdxO_remove {p : α → Bool} {f : α → α}
    (hpf : ∀ x, p (f x) = false) {xs : List α} {i : Nat}
    (hfind : findIdxO p xs = some i) (hle : List.countP p xs ≤ 1) :
    ∀ y ∈ modifyIdx xs i f, p y = false := by
  induction xs generalizing i with
  | nil => simp [findIdxO] at hfind
  | cons x rest ih =>
    by_cases hp : p x = true
    · simp only [findIdxO, hp, if_true, Option.some.injEq] at hfind
      subst hfind
      intro y hy
      simp only [modifyIdx, List.mem_cons] at hy
      rcases hy with rfl | hy
      · exact hpf x
      · rw [List.countP_cons, hp] at hle
        simp only [if_true] at hle
        have hrest : List.countP p rest = 0 := by omega
        rw [List.countP_eq_zero] at hrest
        simp [hrest y hy]
    · obtain ⟨n, hn, hni⟩ := findIdxO_cons_neg hp hfind
      subst hni
      intro y hy
      simp only [modifyIdx, List.mem_cons] at hy
      rcases hy with rfl | hy
      · simpa using hp
      · have hle2 : List.countP p rest ≤ 1 := by
          rw [List.countP_cons] at hle
          omega
        exact ih hn hle2 y hy

/-! ## Helper lemmas: `List.contains` on strings -/

theorem contains_iff_mem (xs : List String) (a : String) : xs.contains a = true ↔ a ∈ xs :=
  List.elem_iff

theorem contains_false_iff (xs : List String) (a : String) :
    xs.contains a = false ↔ a ∉ xs := by
  rw [← Bool.not_eq_true, not_iff_not]
  exact List.elem_iff

theorem contains_filter_ne_self (xs : List String) (a : String) :
    (xs.filter (fun x => x != a)).contains a = false := by
  rw [contains_false_iff]
  intro h
  have := (List.mem_filter.mp h).2
  simp at this

theorem contains_append_ne {xs : List String} {a c : String} (h : c ≠ a) :
    (xs ++ [a]).contains c = xs.contains c := by
  by_cases hm : c ∈ xs
  · rw [(contains_iff_mem _ _).mpr hm, (contains_iff_mem _ _).mpr (List.mem_append_left _ hm)]
  · rw [(contains_false_iff _ _).mpr hm, (contains_false_iff _ _).mpr]
    intro hc
    rcases List.mem_append.mp hc with h1 | h1
    · exact hm h1
    · simp only [List.mem_singleton] at h1
      exact h h1

theorem contains_filter_ne {xs : List String} {a c : String} (h : c ≠ a) :
    (xs.filter (fun x => x != a)).contains c = xs.contains c := by
  by_cases hm : c ∈ xs
  · rw [(contains_iff_mem _ _).mpr hm,
      (contains_iff_mem _ _).mpr (List.mem_filter.mpr ⟨hm, by simp [h]⟩)]
  · rw [(contains_false_iff _ _).mpr hm,
      (contains_false_iff _ _).mpr (fun hc => hm (List.mem_filter.mp hc).1)]

theorem countP_modifyIdx_le_of_imp {p : α → Bool} {f : α → α}
    (hpf : ∀ x, p (f x) = true → p x = true) (xs : List α) (i : Nat) :
    List.countP p (modifyIdx xs i f) ≤ List.countP p xs := by
  induction xs generalizing i with
  | nil => simp [modifyIdx]
  | cons x rest ih =>
    cases i with
    | zero =>
      simp only [modifyIdx, List.countP_cons]
      have : (if p (f x) = true then 1 else 0) ≤ (if p x = true then 1 else 0) := by
        by_cases h1 : p (f x) = true
        · rw [if_pos h1, if_pos (hpf x h1)]
        · rw [if_neg h1]
          omega
      omega
    | succ n =>
      simp only [modifyIdx, List.countP_cons]
      have := ih n
      omega

/-! ## Integrity preservation, operation by operation -/

theorem integrity_createList {b : Board} (t f : String) (hI : IntegrityP b) :
    IntegrityP (createList b t f) := by
  intro l hl cid hcid
  simp only [createList] at hl ⊢
  rcases List.mem_append.mp hl with hl2 | hl2
  · obtain ⟨h1, h2⟩ := hI l hl2 cid hcid
    refine ⟨h1, ?_⟩
    rw [List.countP_append]
    have hz : List.countP (fun l2 => l2.cardIds.contains cid)
        [({ id := f, title := t, cardIds := [] } : BoardList)] = 0 := by
      simp [List.countP_cons]
    omega
  · simp only [List.mem_singleton] at hl2
    subst hl2
    simp at hcid

theorem integrity_modify_cardIds_preserving {b : Board} {i : Nat} {f : BoardList → BoardList}
    (hf : ∀ l, (f l).cardIds = l.cardIds) (hI : IntegrityP b) :
    IntegrityP { b with lists := modifyIdx b.lists i f } := by
  intro l hl cid hcid
  simp only at hl ⊢
  have hcnt : ∀ c : String,
      List.countP (fun l2 => l2.cardIds.contains c) (modifyIdx b.lists i f)
        = List.countP (fun l2 => l2.cardIds.contains c) b.lists :=
    fun c => countP_modifyIdx_eq (fun x => by rw [hf]) b.lists i
  rcases mem_modifyIdx hl with h2 | ⟨x, hx, rfl⟩
  · obtain ⟨ha, hb⟩ := hI l h2 cid hcid
    exact ⟨ha, by rw [hcnt]; exact hb⟩
  · rw [hf] at hcid
    obtain ⟨ha, hb⟩ := hI x hx cid hcid
    exact ⟨ha, by rw [hcnt]; exact hb⟩

theorem integrity_renameList {b : Board} (listId : String) (pr : Option String)
    (hI : IntegrityP b) : IntegrityP (renameList b listId pr) := by
  unfold renameList
  cases hfi : findIdxO (fun l => l.id == listId) b.lists with
  | none => exact hI
  | some i =>
    cases pr with
    | none => exact hI
    | some next =>
      simp only
      by_cases hc : jsTrim next = ""
      · rw [if_pos hc]
        exact hI
      · rw [if_neg hc]
        exact integrity_modify_cardIds_preserving (fun l => rfl) hI

theorem integrity_cards_superset {b : Board} {m2 : List (String × Card)}
    (hsup : ∀ k, (assocLookup b.cards k).isSome = true → (assocLookup m2 k).isSome = true)
    (hI : IntegrityP b) : IntegrityP { b with cards := m2 } := by
  intro l hl cid hcid
  obtain ⟨ha, hb⟩ := hI l hl cid hcid
  exact ⟨hsup cid ha, hb⟩

theorem integrity_editCard {b : Board} (cardId : String) (tp cp dp : Option String)
    (hI : IntegrityP b) : IntegrityP (editCard b cardId tp cp dp) := by
  unfold editCard
  cases hlk : assocLookup b.cards cardId with
  | none => exact hI
  | some card =>
    cases tp with
    | none => exact hI
    | some nextTitle =>
      simp only
      by_cases hc : jsTrim nextTitle = ""
      · rw [if_pos hc]
        exact hI
      · rw [if_neg hc]
        apply integrity_cards_superset _ hI
        intro k hk
        rw [assocLookup_insert]
        by_cases hkk : k = cardId
        · rw [if_pos hkk]
          rfl
        · rw [if_neg hkk]
          exact hk

theorem countP_contains_fresh_zero {b : Board} {freshId : String}
    (hfresh : assocLookup b.cards freshId = none) (hI : IntegrityP b) :
    List.countP (fun l2 => l2.cardIds.contains freshId) b.lists = 0 := by
  rw [List.countP_eq_zero]
  intro y hy
  simp only [Bool.not_eq_true]
  rw [contains_false_iff]
  intro hmem
  have := (hI y hy freshId hmem).1
  rw [hfresh] at this
  simp at this

theorem integrity_createCard {b : Board} (listId title : String) (cat due : Option String)
    (freshId now : String) (hfresh : assocLookup b.cards freshId = none)
    (hI : IntegrityP b) : IntegrityP (createCard b listId title cat due freshId now) := by
  unfold createCard
  cases hfi : findIdxO (fun l => l.id == listId) b.lists with
  | none => exact hI
  | some i =>
    simp only
    intro l hl cid hcid
    simp only at hl ⊢
    have hz := countP_contains_fresh_zero hfresh hI
    by_cases hcf : cid = freshId
    · constructor
      · rw [hcf, assocLookup_insert, if_pos rfl]
        rfl
      · rw [hcf]
        have hle := countP_modifyIdx_le (fun l2 => l2.cardIds.contains freshId)
          (fun l => { l with cardIds := l.cardIds ++ [freshId] }) b.lists i
        omega
    · constructor
      · rcases mem_modifyIdx hl with h2 | ⟨x, hx, rfl⟩
        · have := (hI l h2 cid hcid).1
          rw [assocLookup_insert, if_neg hcf]
          exact this
        · rcases List.mem_append.mp hcid with h3 | h3
          · have := (hI x hx cid h3).1
            rw [assocLookup_insert, if_neg hcf]
            exact this
          · simp only [List.mem_singleton] at h3
            exact absurd h3 hcf
      · have heq := countP_modifyIdx_eq
          (p := fun l2 => l2.cardIds.contains cid)
          (f := fun l => { l with cardIds := l.cardIds ++ [freshId] })
          (fun x => contains_append_ne hcf) b.lists i
        rw [heq]
        rcases mem_modifyIdx hl with h2 | ⟨x, hx, rfl⟩
        · exact (hI l h2 cid hcid).2
        · rcases List.mem_append.mp hcid with h3 | h3
          · exact (hI x hx cid h3).2
          · simp only [List.mem_singleton] at h3
            exact absurd h3 hcf

theorem integrity_deleteCard {b : Board} (cardId : String) (cf : Bool)
    (hI : IntegrityP b) : IntegrityP (deleteCard b cardId cf) := by
  unfold deleteCard
  cases hlk : assocLookup b.cards cardId with
  | none => exact hI
  | some card =>
    cases cf with
    | false => exact hI
    | true =>
      simp only [if_true]
      intro l hl cid hcid
      simp only at hl ⊢
      obtain ⟨x, hx, rfl⟩ := List.mem_map.mp hl
      have hcid2 := List.mem_filter.mp hcid
      have hne : cid ≠ cardId := by
        have := hcid2.2
        simpa using this
      obtain ⟨ha, hb⟩ := hI x hx cid hcid2.1
      constructor
      · rw [assocLookup_filter_key b.cards (fun x => x != cardId) cid]
        rw [if_pos (by simp [hne])]
        exact ha
      · rw [List.countP_map]
        refine le_trans (List.countP_mono_left ?_) hb
        intro a ha2 hpa
        simp only [Function.comp] at hpa
        rw [contains_iff_mem] at hpa ⊢
        exact (List.mem_filter.mp hpa).1

theorem integrity_deleteList {b : Board} (listId : String) (cf : Bool)
    (hI : IntegrityP b) : IntegrityP (deleteList b listId cf) := by
  unfold deleteList
  cases hfd : b.lists.find? (fun l => l.id == listId) with
  | none => exact hI
  | some lst =>
    cases cf with
    | false => exact hI
    | true =>
      simp only [if_true]
      intro l hl cid hcid
      simp only at hl ⊢
      have hlmem := List.mem_filter.mp hl
      have hlne : l.id ≠ listId := by
        have := hlmem.2
        simpa using this
      have hlstmem : lst ∈ b.lists := List.mem_of_find?_eq_some hfd
      have hlstid : lst.id = listId := by
        have := List.find?_some hfd
        simpa using this
      obtain ⟨ha, hb⟩ := hI l hlmem.1 cid hcid
      have hnotin : cid ∉ lst.cardIds := by
        intro hin
        have hne : l ≠ lst := by
          intro he
          rw [he, hlstid] at hlne
          exact hlne rfl
        have h2 := two_le_countP (p := fun l2 => l2.cardIds.contains cid)
          hlmem.1 hlstmem hne
          ((contains_iff_mem _ _).mpr hcid) ((contains_iff_mem _ _).mpr hin)
        omega
      constructor
      · rw [assocLookup_filter_key b.cards (fun x => !lst.cardIds.contains x) cid]
        rw [if_pos (by simp [contains_false_iff, hnotin])]
        exact ha
      · refine le_trans (List.Sublist.countP_le _ (List.filter_sublist _)) hb

/-! Lemmas about the two halves of `moveCardToList`. -/

theorem moveFromLists_not_contains {cardId : String} {lists : List BoardList}
    (hle : List.countP (fun l => l.cardIds.contains cardId) lists ≤ 1) :
    ∀ y ∈ moveFromLists cardId lists, y.cardIds.contains cardId = false := by
  unfold moveFromLists
  cases hfi : findIdxO (fun l => l.cardIds.contains cardId) lists with
  | none =>
    intro y hy
    exact (findIdxO_eq_none_iff _ _).mp hfi y hy
  | some fi =>
    intro y hy
    exact findIdxO_remove (p := fun l => l.cardIds.contains cardId)
      (f := fun l => { l with cardIds := l.cardIds.filter (fun x => x != cardId) })
      (fun x => contains_filter_ne_self x.cardIds cardId) hfi hle y hy

theorem moveFromLists_trace {cardId : String} {lists : List BoardList} {y : BoardList}
    (hy : y ∈ moveFromLists cardId lists) {cid : String} (hcid : cid ∈ y.cardIds) :
    ∃ x ∈ lists, cid ∈ x.cardIds := by
  unfold moveFromLists at hy
  cases hfi : findIdxO (fun l => l.cardIds.contains cardId) lists with
  | none =>
    rw [hfi] at hy
    exact ⟨y, hy, hcid⟩
  | some fi =>
    rw [hfi] at hy
    rcases mem_modifyIdx hy with h2 | ⟨x, hx, rfl⟩
    · exact ⟨y, h2, hcid⟩
    · exact ⟨x, hx, (List.mem_filter.mp hcid).1⟩

theorem moveFromLists_countP_ne {cardId cid : String} (hne : cid ≠ cardId)
    (lists : List BoardList) :
    List.countP (fun l => l.cardIds.contains cid) (moveFromLists cardId lists)
      = List.countP (fun l => l.cardIds.contains cid) lists := by
  unfold moveFromLists
  cases hfi : findIdxO (fun l => l.cardIds.contains cardId) lists with
  | none => rfl
  | some fi =>
    exact countP_modifyIdx_eq (p := fun l => l.cardIds.contains cid)
      (f := fun l => { l with cardIds := l.cardIds.filter (fun x => x != cardId) })
      (fun x => contains_filter_ne hne) lists fi

theorem moveToLists_trace {cardId : String} {ti : Nat} {lists : List BoardList} {y : BoardList}
    (hy : y ∈ moveToLists cardId ti lists) {cid : String} (hcid : cid ∈ y.cardIds)
    (hne : cid ≠ cardId) : ∃ x ∈ lists, cid ∈ x.cardIds := by
  unfold moveToLists at hy
  rcases mem_modifyIdx hy with h2 | ⟨x, hx, rfl⟩
  · exact ⟨y, h2, hcid⟩
  · by_cases hc : x.cardIds.contains cardId = true
    · rw [if_pos hc] at hcid
      exact ⟨x, hx, hcid⟩
    · rw [if_neg hc] at hcid
      rcases List.mem_append.mp hcid with h3 | h3
      · exact ⟨x, hx, h3⟩
      · simp only [List.mem_singleton] at h3
        exact absurd h3 hne

theorem moveToLists_countP_ne {cardId cid : String} (hne : cid ≠ cardId)
    (ti : Nat) (lists : List BoardList) :
    List.countP (fun l => l.cardIds.contains cid) (moveToLists cardId ti lists)
      = List.countP (fun l => l.cardIds.contains cid) lists := by
  unfold moveToLists
  refine countP_modifyIdx_eq (fun x => ?_) lists ti
  by_cases hc : x.cardIds.contains cardId = true
  · rw [if_pos hc]
  · rw [if_neg hc]
    exact contains_append_ne hne

theorem integrity_moveCardToList {b : Board} (cardId targetListId : String)
    (hI : IntegrityP b) : IntegrityP (moveCardToList b cardId targetListId) := by
  unfold moveCardToList
  by_cases hk : (assocLookup b.cards cardId).isNone = true
  · rw [if_pos hk]
    exact hI
  · rw [if_neg hk]
    cases hti : findIdxO (fun l => l.id == targetListId) b.lists with
    | none => exact hI
    | some ti =>
      simp only
      intro l hl cid hcid
      simp only at hl ⊢
      have hksome : (assocLookup b.cards cardId).isSome = true := by
        cases h : assocLookup b.cards cardId with
        | none => rw [h] at hk; simp at hk
        | some _ => rfl
      -- countP of `contains cardId` over the post-removal lists is 0
      have hz : List.countP (fun l2 => l2.cardIds.contains cardId)
          (moveFromLists cardId b.lists) = 0 := by
        rw [List.countP_eq_zero]
        intro y hy
        simp only [Bool.not_eq_true]
        by_cases hcc : ∃ x ∈ b.lists, cardId ∈ x.cardIds
        · obtain ⟨x, hx, hmem⟩ := hcc
          have hle := (hI x hx cardId hmem).2
          exact moveFromLists_not_contains hle y hy
        · push_neg at hcc
          have hle : List.countP (fun l2 => l2.cardIds.contains cardId) b.lists ≤ 1 := by
            have h0 : List.countP (fun l2 => l2.cardIds.contains cardId) b.lists = 0 := by
              rw [List.countP_eq_zero]
              intro a ha
              simp only [Bool.not_eq_true]
              exact (contains_false_iff _ _).mpr (hcc a ha)
            omega
          exact moveFromLists_not_contains hle y hy
      by_cases hcf : cid = cardId
      · subst hcf
        refine ⟨hksome, ?_⟩
        have hle := countP_modifyIdx_le (fun l2 => l2.cardIds.contains cid)
          (fun l => if l.cardIds.contains cid then l
                    else { l with cardIds := l.cardIds ++ [cid] })
          (moveFromLists cid b.lists) ti
        unfold moveToLists
        omega
      · -- the card id `cid` traces back to an original list
        obtain ⟨x1, hx1, hcid1⟩ := moveToLists_trace hl hcid hcf
        obtain ⟨x0, hx0, hcid0⟩ := moveFromLists_trace hx1 hcid1
        obtain ⟨ha, hb⟩ := hI x0 hx0 cid hcid0
        refine ⟨ha, ?_⟩
        rw [moveToLists_countP_ne hcf, moveFromLists_countP_ne hcf]
        exact hb

theorem integrity_applyMutation {b : Board} {m : Mutation}
    (hf : freshOKB b m = true) (hI : IntegrityP b) : IntegrityP (applyMutation b m) := by
  cases m with
  | createList t f => exact integrity_createList t f hI
  | renameList i p => exact integrity_renameList i p hI
  | deleteList i c => exact integrity_deleteList i c hI
  | createCard l t c d f n =>
    have hfr : assocLookup b.cards f = none := by
      simp only [freshOKB] at hf
      exact Option.isNone_iff_eq_none.mp hf
    exact integrity_createCard l t c d f n hfr hI
  | editCard c tp cp dp => exact integrity_editCard c tp cp dp hI
  | deleteCard c cf => exact integrity_deleteCard c cf hI
  | moveCardToList c t => exact integrity_moveCardToList c t hI

/-! Frame lemmas for `moveCardToList` (id/title/order of the lists are not
touched; untouched positions keep their lists). -/

theorem map_idTitle_moveFromLists (c : String) (lists : List BoardList) :
    (moveFromLists c lists).map (fun l => (l.id, l.title))
      = lists.map (fun l => (l.id, l.title)) := by
  unfold moveFromLists
  cases hfi : findIdxO (fun l => l.cardIds.contains c) lists with
  | none => rfl
  | some fi =>
    exact map_modifyIdx (g := fun l => (l.id, l.title))
      (f := fun l => { l with cardIds := l.cardIds.filter (fun x => x != c) })
      (fun x => rfl) lists fi

theorem map_idTitle_moveToLists (c : String) (ti : Nat) (lists : List BoardList) :
    (moveToLists c ti lists).map (fun l => (l.id, l.title))
      = lists.map (fun l => (l.id, l.title)) := by
  unfold moveToLists
  refine map_modifyIdx (fun x => ?_) lists ti
  by_cases hc : x.cardIds.contains c = true
  · rw [if_pos hc]
  · rw [if_neg hc]

theorem get?_moveFromLists_of_not_contains {c : String} {lists : List BoardList} {j : Nat}
    {l : BoardList} (hj : lists.get? j = some l)
    (hnc : l.cardIds.contains c = false) :
    (moveFromLists c lists).get? j = some l := by
  unfold moveFromLists
  cases hfi : findIdxO (fun l => l.cardIds.contains c) lists with
  | none => exact hj
  | some fi =>
    rw [get?_modifyIdx]
    have hne : fi ≠ j := by
      intro he
      subst he
      obtain ⟨x, hx, hpx⟩ := findIdxO_get hfi
      rw [hj] at hx
      injection hx with hx2
      rw [← hx2, hnc] at hpx
      exact Bool.false_ne_true hpx
    rw [if_neg hne]
    exact hj

theorem get?_moveToLists_of_ne {c : String} {ti : Nat} {lists : List BoardList} {j : Nat}
    {l : BoardList} (hj : lists.get? j = some l) (hne : ti ≠ j) :
    (moveToLists c ti lists).get? j = some l := by
  unfold moveToLists
  rw [get?_modifyIdx, if_neg hne]
  exact hj

/-! ## Claim C1 -/

/-- C1: for every board satisfying the data-model invariants and for every
sequence of Mutation API calls — with the card ids produced by `uid()`
fresh, which is what the generator is for — the resulting board satisfies
referential integrity: every id in every list's `cardIds` exists as a key
of the card mapping, and every card id occurs in at most one list's
`cardIds`. -/
theorem C1_referential_integrity (b : Board) (ms : List Mutation)
    (hI : integrityB b = true) (hf : stepsFresh b ms = true) :
    integrityB (applyAll b ms) = true := by
  induction ms generalizing b with
  | nil => exact hI
  | cons m rest ih =>
    simp only [stepsFresh, Bool.and_eq_true] at hf
    simp only [applyAll]
    refine ih _ ?_ hf.2
    rw [integrityB_iff] at hI ⊢
    exact integrity_applyMutation hf.1 hI

/-- Witness for C1: the hypotheses hold and the conclusion follows at a
concrete board and mutation sequence. -/
theorem C1_referential_integrity_witness :
    integrityB witBoard = true ∧ stepsFresh witBoard witMuts = true ∧
    integrityB (applyAll witBoard witMuts) = true :=
  ⟨rfl, by decide, C1_referential_integrity witBoard witMuts rfl (by decide)⟩

/-! ## Claim C9 -/

/-- C9: `moveCardToList` never modifies the card mapping, the version, any
list's id or title, or the order of the lists; any list that does not
contain the card and is not the target keeps its position and value; and
when no list carries the target id the whole board is unchanged. -/
theorem C9_moveCard_frame (b : Board) (cardId targetListId : String) :
    (moveCardToList b cardId targetListId).cards = b.cards ∧
    (moveCardToList b cardId targetListId).version = b.version ∧
    (moveCardToList b cardId targetListId).lists.map (fun l => (l.id, l.title))
      = b.lists.map (fun l => (l.id, l.title)) ∧
    (∀ j l, b.lists.get? j = some l → l.cardIds.contains cardId = false →
      l.id ≠ targetListId →
      (moveCardToList b cardId targetListId).lists.get? j = some l) ∧
    ((∀ l ∈ b.lists, l.id ≠ targetListId) → moveCardToList b cardId targetListId = b) := by
  unfold moveCardToList
  by_cases hk : (assocLookup b.cards cardId).isNone = true
  · rw [if_pos hk]
    exact ⟨rfl, rfl, rfl, fun j l hj _ _ => hj, fun _ => rfl⟩
  · rw [if_neg hk]
    cases hti : findIdxO (fun l => l.id == targetListId) b.lists with
    | none =>
      exact ⟨rfl, rfl, rfl, fun j l hj _ _ => hj, fun _ => rfl⟩
    | some ti =>
      refine ⟨rfl, rfl, ?_, ?_, ?_⟩
      · show (moveToLists cardId ti (moveFromLists cardId b.lists)).map _ = _
        rw [map_idTitle_moveToLists, map_idTitle_moveFromLists]
      · intro j l hj hnc hne
        have hjne : ti ≠ j := by
          intro he
          subst he
          obtain ⟨x, hx, hpx⟩ := findIdxO_get hti
          rw [hj] at hx
          injection hx with hx2
          subst hx2
          simp only [beq_iff_eq] at hpx
          exact hne hpx
        exact get?_moveToLists_of_ne (get?_moveFromLists_of_not_contains hj hnc) hjne
      · intro hno
        exfalso
        obtain ⟨x, hx, hpx⟩ := findIdxO_get hti
        have hxm : x ∈ b.lists := List.get?_mem hx
        simp only [beq_iff_eq] at hpx
        exact (hno x hxm) hpx

/-- Witness for C9: the frame property instantiated at position 0 of a
concrete board, with every hypothesis discharged by evaluation. -/
theorem C9_moveCard_frame_witness :
    wit9B.lists.get? 0 = some { id := "L0", title := "A", cardIds := ["c9"] } ∧
    (["c9"] : List String).contains "c1" = false ∧
    ("L0" : String) ≠ "L2" ∧
    (moveCardToList wit9B "c1" "L2").lists.get? 0
      = some { id := "L0", title := "A", cardIds := ["c9"] } :=
  ⟨rfl, by decide, by decide,
    (C9_moveCard_frame wit9B "c1" "L2").2.2.2.1 0
      { id := "L0", title := "A", cardIds := ["c9"] } rfl (by decide) (by decide)⟩

/-! ## Claim C5 -/

/-- C5: confirmed `deleteList` on a list `L` whose `cardIds` is `[c1, c2]`
removes `L` from the lists sequence (every other list kept unchanged, in
order), removes `c1` and `c2` from the card mapping entirely, and keeps
every other card entry. -/
theorem C5_cascade_delete (b : Board) (listId c1 c2 : String) (L : BoardList)
    (hfd : b.lists.find? (fun l => l.id == listId) = some L)
    (hcards : L.cardIds = [c1, c2]) :
    assocLookup (deleteList b listId true).cards c1 = none ∧
    assocLookup (deleteList b listId true).cards c2 = none ∧
    (deleteList b listId true).lists = b.lists.filter (fun l => l.id != listId) ∧
    (∀ k, k ≠ c1 → k ≠ c2 →
      assocLookup (deleteList b listId true).cards k = assocLookup b.cards k) := by
  unfold deleteList
  rw [hfd]
  refine ⟨?_, ?_, rfl, ?_⟩
  · show assocLookup (b.cards.filter (fun kv => !(L.cardIds.contains kv.1))) c1 = none
    rw [assocLookup_filter_key b.cards (fun x => !L.cardIds.contains x) c1]
    rw [if_neg (by simp [hcards])]
  · show assocLookup (b.cards.filter (fun kv => !(L.cardIds.contains kv.1))) c2 = none
    rw [assocLookup_filter_key b.cards (fun x => !L.cardIds.contains x) c2]
    rw [if_neg (by simp [hcards])]
  · intro k hk1 hk2
    show assocLookup (b.cards.filter (fun kv => !(L.cardIds.contains kv.1))) k = _
    rw [assocLookup_filter_key b.cards (fun x => !L.cardIds.contains x) k]
    rw [if_pos (by simp [hcards, hk1, hk2])]

/-- Witness for C5 at a concrete board: list LA with cards c1, c2 is
deleted, c1 and c2 disappear from the mapping, list LB and card c3
survive. -/
theorem C5_cascade_delete_witness :
    assocLookup (deleteList wit5B "LA" true).cards "c1" = none ∧
    assocLookup (deleteList wit5B "LA" true).cards "c2" = none ∧
    (deleteList wit5B "LA" true).lists = wit5B.lists.filter (fun l => l.id != "LA") ∧
    assocLookup (deleteList wit5B "LA" true).cards "c3" = assocLookup wit5B.cards "c3" := by
  have h := C5_cascade_delete wit5B "LA" "c1" "c2"
    { id := "LA", title := "A", cardIds := ["c1", "c2"] } (by decide) rfl
  exact ⟨h.1, h.2.1, h.2.2.1, h.2.2.2 "c3" (by decide) (by decide)⟩

/-! ## Claim C4 -/

/-- Counterexample to C4 as stated: the target list "L" already contains
"c1" (at position 0), yet `moveCardToList` does not leave the target's
sequence unchanged — the filter runs before the membership test on the
aliased target, so the card is removed and re-appended at the end:
["c1", "c2"] becomes ["c2", "c1"]. -/
theorem C4_idempotent_move_counterexample :
    wit4B.lists.find? (fun l => l.id == "L")
      = some { id := "L", title := "T", cardIds := ["c1", "c2"] } ∧
    (moveCardToList wit4B "c1" "L").lists.map (fun l => l.cardIds) = [["c2", "c1"]] ∧
    ¬ (moveCardToList wit4B "c1" "L").lists = wit4B.lists :=
  ⟨by decide, by decide, by decide⟩

theorem moveStep_eq (c : String) (x : BoardList) :
    moveStep c x = { x with cardIds := x.cardIds.filter (fun y => y != c) ++ [c] } := by
  unfold moveStep
  rw [if_neg (fun hh => Bool.false_ne_true ((contains_filter_ne_self _ _) ▸ hh))]

theorem filter_ne_append_self {ys : List String} {c : String}
    (hys : ∀ a ∈ ys, (a != c) = true) :
    (ys ++ [c]).filter (fun y => y != c) = ys := by
  rw [List.filter_append, List.filter_eq_self.mpr hys]
  simp

theorem moveStep_idem (c : String) (x : BoardList) :
    moveStep c (moveStep c x) = moveStep c x := by
  rw [moveStep_eq c x, moveStep_eq c _]
  have h := filter_ne_append_self (c := c)
    (fun a ha => (List.mem_filter.mp (ha : a ∈ x.cardIds.filter (fun y => y != c))).2)
  show ({ x with cardIds :=
      ((x.cardIds.filter (fun y => y != c) ++ [c]).filter (fun y => y != c)) ++ [c] }
    : BoardList) = _
  rw [h]

/-- When the first list containing the card *is* the target list (index
`j`), `moveCardToList` is exactly `moveStep` applied at `j`. -/
theorem moveCardToList_eq_modify {B : Board} {cardId targetListId : String} {j : Nat}
    (hknn : ¬ ((assocLookup B.cards cardId).isNone = true))
    (hto : findIdxO (fun l => l.id == targetListId) B.lists = some j)
    (hfrom : findIdxO (fun l => l.cardIds.contains cardId) B.lists = some j) :
    moveCardToList B cardId targetListId
      = { B with lists := modifyIdx B.lists j (moveStep cardId) } := by
  unfold moveCardToList
  rw [if_neg hknn, hto]
  show { B with lists := moveToLists cardId j (moveFromLists cardId B.lists) } = _
  unfold moveFromLists
  rw [hfrom]
  show { B with lists := moveToLists cardId j (modifyIdx B.lists j
    (fun l => { l with cardIds := l.cardIds.filter (fun x => x != cardId) })) } = _
  unfold moveToLists
  rw [modifyIdx_modifyIdx]
  exact rfl

theorem modifyIdx_congr {f g : α → α} (h : ∀ x, f x = g x) (xs : List α) (i : Nat) :
    modifyIdx xs i f = modifyIdx xs i g :=
  congrArg (modifyIdx xs i) (funext h)

/-- C4 (amended): on a board satisfying the data-model invariants
(referential integrity, unique list ids) whose target list `L` already
contains the card, `moveCardToList` removes the id and re-appends it at the
end — the target's sequence becomes
`L.cardIds.filter (· != cardId) ++ [cardId]`, so it is unchanged exactly
when the card was already last (not at an arbitrary position, as stated);
and two consecutive calls coincide: the second identical call changes
nothing, leaving the card exactly once, at the end. -/
theorem C4_idempotent_move (b : Board) (cardId targetListId : String) (L : BoardList)
    (hI : integrityB b = true)
    (hnd : (b.lists.map (fun l => l.id)).Nodup)
    (hkey : (assocLookup b.cards cardId).isSome = true)
    (hLmem : L ∈ b.lists)
    (hLid : L.id = targetListId)
    (hLc : L.cardIds.contains cardId = true) :
    (∀ l ∈ (moveCardToList b cardId targetListId).lists, l.id = targetListId →
       l.cardIds = L.cardIds.filter (fun x => x != cardId) ++ [cardId]) ∧
    moveCardToList (moveCardToList b cardId targetListId) cardId targetListId
      = moveCardToList b cardId targetListId := by
  have hIP := integrityB_iff.mp hI
  obtain ⟨jL, hjL⟩ := List.mem_iff_get?.mp hLmem
  have hcnt : List.countP (fun l => l.cardIds.contains cardId) b.lists ≤ 1 :=
    (hIP L hLmem cardId ((contains_iff_mem _ _).mp hLc)).2
  have hothers : ∀ k y, b.lists.get? k = some y → k ≠ jL →
      y.cardIds.contains cardId = false := by
    intro k y hk hkne
    cases hyc : y.cardIds.contains cardId with
    | false => rfl
    | true => exact absurd (countP_le_one_pos_unique hcnt hk hjL hyc hLc) hkne
  have hoid : ∀ k y, b.lists.get? k = some y → k ≠ jL →
      (y.id == targetListId) = false := by
    intro k y hk hkne
    cases hyc : (y.id == targetListId) with
    | false => rfl
    | true =>
      have hfy : y.id = L.id := by
        simp only [beq_iff_eq] at hyc
        rw [hyc, hLid]
      exact absurd (nodup_map_get?_inj hnd hk hjL hfy) hkne
  have hto : findIdxO (fun l => l.id == targetListId) b.lists = some jL := by
    refine findIdxO_eq_some_intro hjL (by simp [hLid]) ?_
    intro j hj y hy
    exact hoid j y hy (by omega)
  have hfrom : findIdxO (fun l => l.cardIds.contains cardId) b.lists = some jL := by
    refine findIdxO_eq_some_intro hjL hLc ?_
    intro j hj y hy
    exact hothers j y hy (by omega)
  have hknn : ¬ ((assocLookup b.cards cardId).isNone = true) := by
    cases hgl : assocLookup b.cards cardId with
    | none => rw [hgl] at hkey; simp at hkey
    | some v => simp
  have hb1 : moveCardToList b cardId targetListId
      = { b with lists := modifyIdx b.lists jL (moveStep cardId) } :=
    moveCardToList_eq_modify hknn hto hfrom
  have hget1 : (modifyIdx b.lists jL (moveStep cardId)).get? jL
      = some (moveStep cardId L) := by
    rw [get?_modifyIdx, if_pos rfl, hjL]
    rfl
  have hget2 : ∀ k, k ≠ jL →
      (modifyIdx b.lists jL (moveStep cardId)).get? k = b.lists.get? k := by
    intro k hkne
    rw [get?_modifyIdx, if_neg (fun he => hkne he.symm)]
  constructor
  · intro l hl hlid
    rw [hb1] at hl
    obtain ⟨k, hk⟩ := List.mem_iff_get?.mp hl
    by_cases hkj : k = jL
    · subst hkj
      rw [hget1] at hk
      injection hk with hk2
      rw [← hk2, moveStep_eq]
    · rw [hget2 k hkj] at hk
      exfalso
      have hfid := hoid k l hk hkj
      rw [hlid] at hfid
      simp at hfid
  · rw [hb1]
    have hto1 : findIdxO (fun l => l.id == targetListId)
        (modifyIdx b.lists jL (moveStep cardId)) = some jL := by
      refine findIdxO_eq_some_intro hget1 (by simp [moveStep_eq, hLid]) ?_
      intro j hj y hy
      rw [hget2 j (by omega)] at hy
      exact hoid j y hy (by omega)
    have hfrom1 : findIdxO (fun l => l.cardIds.contains cardId)
        (modifyIdx b.lists jL (moveStep cardId)) = some jL := by
      refine findIdxO_eq_some_intro hget1 ?_ ?_
      · rw [moveStep_eq]
        exact (contains_iff_mem _ _).mpr
          (List.mem_append_right _ (List.mem_singleton.mpr rfl))
      · intro j hj y hy
        rw [hget2 j (by omega)] at hy
        exact hothers j y hy (by omega)
    rw [moveCardToList_eq_modify
      (B := { b with lists := modifyIdx b.lists jL (moveStep cardId) }) hknn hto1 hfrom1]
    show ({ b with
            lists :=
              modifyIdx (modifyIdx b.lists jL (moveStep cardId)) jL (moveStep cardId) }
        : Board)
      = { b with lists := modifyIdx b.lists jL (moveStep cardId) }
    rw [modifyIdx_modifyIdx, modifyIdx_congr (fun x => moveStep_idem cardId x)]

/-- Witness for C4 (amended) at the counterexample board: after the move
the target list holds ["c2", "c1"] — the filtered sequence with the card
re-appended — and a second identical move changes nothing. -/
theorem C4_idempotent_move_witness :
    ({ id := "L", title := "T", cardIds := ["c2", "c1"] } : BoardList)
      ∈ (moveCardToList wit4B "c1" "L").lists ∧
    (["c2", "c1"] : List String)
      = (["c1", "c2"] : List String).filter (fun x => x != "c1") ++ ["c1"] ∧
    moveCardToList (moveCardToList wit4B "c1" "L") "c1" "L"
      = moveCardToList wit4B "c1" "L" := by
  have h := C4_idempotent_move wit4B "c1" "L"
    { id := "L", title := "T", cardIds := ["c1", "c2"] }
    (by decide) (by decide) (by decide) (by decide) rfl (by decide)
  exact ⟨by decide,
    h.1 { id := "L", title := "T", cardIds := ["c2", "c1"] } (by decide) rfl, h.2⟩

/-- Counterexample to C8 as stated: the reply `"PROJECT"` does not match
the fixed enumeration `{assignment, lab, project, mod, unfinished}`, yet
`editCard` changes the card's category from `lab` to `project` — the code
trims and lower-cases the reply before matching, so an unrecognized
*supplied* value can still change the category. -/
theorem C8_category_counterexample :
    CATEGORY_KEYS.contains "PROJECT" = false ∧
    assocLookup wit8B.cards "c1"
      = some { id := "c1", title := "t", createdAt := "n",
               category := "lab", dueDate := none } ∧
    assocLookup (editCard wit8B "c1" (some "t") (some "PROJECT") (some "")).cards "c1"
      = some { id := "c1", title := "t", createdAt := "n",
               category := "project", dueDate := none } :=
  ⟨by decide, rfl, by decide⟩

/-- C8 (amended): import normalization maps a card whose `category` field
is a string outside the fixed enumeration to `project`; and `editCard`
leaves a card's category unchanged whenever the supplied reply *after the
trim and lower-casing the code applies before matching* is not in the
enumeration (matching the raw reply is not enough: see the
counterexample with `"PROJECT"`). -/
theorem C8_category_fallback
    (now id s : String) (c : JValue)
    (hcs : jFieldD c "category" = some (.str s))
    (hnn : c ≠ JValue.null)
    (hs : CATEGORY_KEYS.contains s = false)
    (b : Board) (cardId : String) (card : Card)
    (hcard : assocLookup b.cards cardId = some card)
    (tp cp dp : Option String)
    (hcp : CATEGORY_KEYS.contains (jsToLower (jsTrim (cp.getD ""))) = false) :
    (∃ fields, normCard now id c = .ok (id, .obj fields) ∧
       jPairsLookup fields "category" = some (.str "project")) ∧
    (∃ card2, assocLookup (editCard b cardId tp cp dp).cards cardId = some card2 ∧
       card2.category = card.category) := by
  constructor
  · cases c with
    | null => exact absurd rfl hnn
    | bool v => simp [jFieldD] at hcs
    | num v => simp [jFieldD] at hcs
    | str v => simp [jFieldD] at hcs
    | arr v => simp [jFieldD] at hcs
    | obj fields0 =>
      refine ⟨_, rfl, ?_⟩
      have hcat : (match jFieldD (JValue.obj fields0) "category" with
                   | some (.str s) =>
                     if CATEGORY_KEYS.contains s then JValue.str s else .str "project"
                   | _ => .str "project") = JValue.str "project" := by
        rw [hcs]
        exact if_neg (fun hh => Bool.false_ne_true (hs ▸ hh))
      simp only [jPairsLookup, hcat]
      simp
  · unfold editCard
    rw [hcard]
    cases tp with
    | none => exact ⟨card, hcard, rfl⟩
    | some t =>
      simp only
      by_cases ht : jsTrim t = ""
      · rw [if_pos ht]
        exact ⟨card, hcard, rfl⟩
      · rw [if_neg ht]
        exact ⟨_, by rw [assocLookup_insert, if_pos rfl],
          if_neg (fun hh => Bool.false_ne_true (hcp ▸ hh))⟩

/-- Witness for C8 (amended) at concrete inputs: a card imported with
category `"urgent"` normalizes to `project`, and an edit replying
`"urgent"` leaves the category `lab` unchanged. -/
theorem C8_category_fallback_witness :
    (∃ fields, normCard "NOW" "k" (JValue.obj [("category", JValue.str "urgent")])
        = .ok ("k", .obj fields) ∧
      jPairsLookup fields "category" = some (.str "project")) ∧
    (∃ card2, assocLookup (editCard wit8B "c1" (some "t") (some "urgent") (some "")).cards "c1"
        = some card2 ∧
      card2.category = ("lab" : String)) := by
  have h := C8_category_fallback "NOW" "k" "urgent"
    (JValue.obj [("category", JValue.str "urgent")])
    rfl (fun hh => nomatch hh) (by decide) wit8B "c1"
    { id := "c1", title := "t", createdAt := "n", category := "lab", dueDate := none }
    rfl (some "t") (some "urgent") (some "") (by decide)
  exact ⟨h.1, h.2⟩

/-! ## Helper lemmas: the codec -/

theorem mem_assocInsert {m : List (String × α)} {k : String} {v : α} {kv : String × α}
    (h : kv ∈ assocInsert m k v) : kv ∈ m ∨ kv.2 = v := by
  unfold assocInsert at h
  by_cases ha : m.any (fun kv => kv.1 == k) = true
  · rw [if_pos ha] at h
    obtain ⟨x, hx, he⟩ := List.mem_map.mp h
    by_cases hxk : (x.1 == k) = true
    · rw [if_pos hxk] at he
      right
      rw [← he]
    · rw [if_neg hxk] at he
      left
      rw [← he]
      exact hx
  · rw [if_neg ha] at h
    rcases List.mem_append.mp h with h2 | h2
    · exact Or.inl h2
    · right
      rw [List.mem_singleton.mp h2]

theorem foldl_insert_value_pred {P : α → Prop} (entries : List (String × α)) :
    ∀ acc : List (String × α),
      (∀ kv ∈ acc, P kv.2) → (∀ kv ∈ entries, P kv.2) →
      ∀ kv ∈ entries.foldl (fun a kv2 => assocInsert a kv2.1 kv2.2) acc, P kv.2 := by
  induction entries with
  | nil =>
    intro acc hacc _ kv hkv
    exact hacc kv hkv
  | cons e rest ih =>
    intro acc hacc hent kv hkv
    simp only [List.foldl_cons] at hkv
    refine ih (assocInsert acc e.1 e.2) ?_
      (fun kv2 hkv2 => hent kv2 (List.mem_cons_of_mem _ hkv2)) kv hkv
    intro kv2 hkv2
    rcases mem_assocInsert hkv2 with h2 | h2
    · exact hacc kv2 h2
    · rw [h2]
      exact hent e (List.mem_cons_self _ _)

theorem migCard_fields {now id0 : String} {c : JValue} {e2 : String × JValue}
    (h : migCard now id0 c = .ok e2) :
    jFieldD e2.2 "category" = some (.str "project") ∧
    jFieldD e2.2 "dueDate" = some .null := by
  cases c
  case null => exact Except.noConfusion h
  all_goals
    unfold migCard at h
  all_goals
    injection h with h2
  all_goals
    rw [← h2]
  all_goals
    exact ⟨rfl, rfl⟩

theorem migCards_value_fields {now : String} {es out : List (String × JValue)}
    (h : migCards now es = .ok out) :
    ∀ kv ∈ out, jFieldD kv.2 "category" = some (.str "project") ∧
      jFieldD kv.2 "dueDate" = some .null := by
  induction es generalizing out with
  | nil =>
    unfold migCards at h
    injection h with h2
    rw [← h2]
    intro kv hkv
    simp at hkv
  | cons e rest ih =>
    obtain ⟨id0, c0⟩ := e
    unfold migCards at h
    cases hmc : migCard now id0 c0 with
    | error e0 =>
      simp only [hmc] at h
      exact Except.noConfusion h
    | ok e2 =>
      simp only [hmc] at h
      cases hrest : migCards now rest with
      | error e0 =>
        simp only [hrest] at h
        exact Except.noConfusion h
      | ok rest2 =>
        simp only [hrest] at h
        injection h with h2
        intro kv hkv
        rw [← h2] at hkv
        rcases List.mem_cons.mp hkv with rfl | hkv2
        · exact migCard_fields hmc
        · exact ih hrest kv hkv2

theorem normList_ok_of_nonnull {s : String} {l : JValue} (h : l ≠ JValue.null) :
    ∃ out, normList s l = .ok out := by
  cases l
  case null => exact absurd rfl h
  all_goals exact ⟨_, rfl⟩

theorem normLists_ok_of_nonnull {fresh : Nat → String} {ls : List JValue}
    (h : ∀ l ∈ ls, l ≠ JValue.null) : ∀ i, ∃ out, normLists fresh i ls = .ok out := by
  induction ls with
  | nil => exact fun i => ⟨[], rfl⟩
  | cons l rest ih =>
    intro i
    obtain ⟨o1, ho1⟩ := normList_ok_of_nonnull (s := fresh i) (h l (List.mem_cons_self _ _))
    obtain ⟨o2, ho2⟩ := ih (fun x hx => h x (List.mem_cons_of_mem _ hx)) (i + 1)
    refine ⟨o1 :: o2, ?_⟩
    unfold normLists
    simp only [ho1, ho2]

theorem migCard_ok_of_nonnull {now id0 : String} {c : JValue} (h : c ≠ JValue.null) :
    ∃ out, migCard now id0 c = .ok out := by
  cases c
  case null => exact absurd rfl h
  all_goals exact ⟨_, rfl⟩

theorem migCards_ok_of_nonnull {now : String} {es : List (String × JValue)}
    (h : ∀ kv ∈ es, kv.2 ≠ JValue.null) : ∃ out, migCards now es = .ok out := by
  induction es with
  | nil => exact ⟨[], rfl⟩
  | cons e rest ih =>
    obtain ⟨id0, c0⟩ := e
    obtain ⟨o1, ho1⟩ := @migCard_ok_of_nonnull now id0 c0
      (h (id0, c0) (List.mem_cons_self _ _))
    obtain ⟨o2, ho2⟩ := ih (fun x hx => h x (List.mem_cons_of_mem _ hx))
    refine ⟨o1 :: o2, ?_⟩
    unfold migCards
    simp only [ho1, ho2]

/-! ## Claim C3 -/

/-- Counterexample to C3 as stated: `typeof [] === "object"` in JavaScript,
so the text "[]" is *not* rejected — importing it succeeds, replacing the
current board with the empty normalized board instead of leaving it
unchanged and signalling InvalidDocument. -/
theorem C3_invalid_import_counterexample :
    importBoardFromFile (fun n => "g") "NOW" (some wit3In) wit3Cur
      = (JValue.obj [("version", .num 2), ("lists", .arr []), ("cards", .obj [])], true) ∧
    ¬ (JValue.obj [("version", .num 2), ("lists", .arr []), ("cards", .obj [])]
        = wit3Cur) := by
  refine ⟨rfl, ?_⟩
  intro h
  simp [wit3Cur, wit5B, Board.toJson] at h

/-- C3 (amended): importing text that is not valid JSON (`JSON.parse`
throws), or whose top-level JSON value is null, a boolean, a number or a
string, leaves the current board unchanged and signals failure; but a
top-level *array* passes the `typeof` check and is accepted, normalizing to
the empty board — text "[]" replaces the current state rather than being
rejected. -/
theorem C3_invalid_import (fresh : Nat → String) (now : String) (cur : JValue) :
    importBoardFromFile fresh now none cur = (cur, false) ∧
    (∀ v : JValue, jsTypeofObject v = false →
      importBoardFromFile fresh now (some v) cur = (cur, false)) ∧
    importBoardFromFile fresh now (some JValue.null) cur = (cur, false) ∧
    importBoardFromFile fresh now (some (JValue.arr [])) cur
      = (JValue.obj [("version", .num 2), ("lists", .arr []), ("cards", .obj [])], true) := by
  refine ⟨rfl, ?_, rfl, rfl⟩
  intro v hv
  have hnorm : normalizeImportedState fresh now v = .error "Invalid file" := by
    unfold normalizeImportedState
    rw [if_pos (by rw [hv]; simp)]
  show (match normalizeImportedState fresh now v with
        | .error _ => (cur, false)
        | .ok b2 => (b2, true)) = (cur, false)
  rw [hnorm]

/-- Witness for C3 (amended): the number 5 as top level is rejected, the
board is kept. -/
theorem C3_invalid_import_witness :
    jsTypeofObject (JValue.num 5) = false ∧
    importBoardFromFile (fun n => "g") "NOW" (some (JValue.num 5)) wit3Cur
      = (wit3Cur, false) :=
  ⟨rfl, (C3_invalid_import (fun n => "g") "NOW" wit3Cur).2.1 (JValue.num 5) rfl⟩

/-! ## Claim C10 -/

/-- C10: import normalization copies `cardIds` verbatim without checking
membership in the normalized card mapping — the document `wit10In` imports
successfully to a board whose list references "ghost", a card id that is
not a key of the (empty) cards mapping, violating referential
integrity. -/
theorem C10_import_breaks_integrity :
    normalizeImportedState (fun n => "g") "NOW" wit10In = .ok wit10Out ∧
    jIntegrity wit10Out = false ∧
    jFieldD wit10Out "cards" = some (.obj []) :=
  ⟨rfl, rfl, rfl⟩

/-! ## Claim C6 -/

/-- C6: migrating the legacy value
`{lists: [{id: "L1"}], cards: {C1: {title: "x"}}}` yields one list with id
"L1", title "Untitled" and empty `cardIds`, and one card keyed "C1" with
title "x", category `project`, `createdAt` defaulted to the current
timestamp and no due date; and in general *every* card of *any* successful
migration has category `project` and a null due date. -/
theorem C6_migration_defaulting (fresh : Nat → String) (now : String) :
    migrateFromOldState fresh now
      (.obj [("lists", .arr [.obj [("id", .str "L1")]]),
             ("cards", .obj [("C1", .obj [("title", .str "x")])])])
      = .ok (some (.obj [("version", .num 2),
          ("lists", .arr [.obj [("id", .str "L1"), ("title", .str "Untitled"),
                                ("cardIds", .arr [])]]),
          ("cards", .obj [("C1", .obj [("id", .str "C1"), ("title", .str "x"),
                                       ("createdAt", .str now),
                                       ("category", .str "project"),
                                       ("dueDate", .null)])])])) ∧
    (∀ old out cs, migrateFromOldState fresh now old = .ok (some out) →
      jFieldD out "cards" = some (.obj cs) →
      ∀ kv ∈ cs, jFieldD kv.2 "category" = some (.str "project") ∧
        jFieldD kv.2 "dueDate" = some .null) := by
  constructor
  · rfl
  · intro old out cs hmig hcs kv hkv
    unfold migrateFromOldState at hmig
    split at hmig
    · exact Option.noConfusion (Except.ok.inj hmig)
    · split at hmig
      · exact Option.noConfusion (Except.ok.inj hmig)
      · rename_i lv hlv
        split at hmig
        · exact Option.noConfusion (Except.ok.inj hmig)
        · split at hmig
          · exact Option.noConfusion (Except.ok.inj hmig)
          · rename_i cv hcv
            split at hmig
            · exact Option.noConfusion (Except.ok.inj hmig)
            · cases lv with
              | arr ls =>
                cases hnl : normLists fresh 0 ls with
                | error e0 =>
                  cases hme : migCards now (jsEntries cv) with
                  | error e1 =>
                    simp only [hnl, hme] at hmig
                    exact Except.noConfusion hmig
                  | ok entries2 =>
                    simp only [hnl, hme] at hmig
                    exact Except.noConfusion hmig
                | ok lists2 =>
                  cases hme : migCards now (jsEntries cv) with
                  | error e1 =>
                    simp only [hnl, hme] at hmig
                    exact Except.noConfusion hmig
                  | ok entries2 =>
                    simp only [hnl, hme] at hmig
                    have hout := Option.some.inj (Except.ok.inj hmig)
                    rw [← hout] at hcs
                    have hcs2 : cs = buildObj entries2 :=
                      (JValue.obj.inj (Option.some.inj hcs)).symm
                    rw [hcs2] at hkv
                    exact foldl_insert_value_pred
                      (P := fun c => jFieldD c "category" = some (.str "project") ∧
                        jFieldD c "dueDate" = some .null)
                      entries2 [] (by simp) (migCards_value_fields hme) kv hkv
              | null => exact Except.noConfusion hmig
              | bool v2 => exact Except.noConfusion hmig
              | num v2 => exact Except.noConfusion hmig
              | str v2 => exact Except.noConfusion hmig
              | obj v2 => exact Except.noConfusion hmig

/-- Witness for C6: the general defaulting conjunct instantiated at the
concrete migration of the claim's legacy value. -/
theorem C6_migration_defaulting_witness :
    jFieldD (JValue.obj [("id", .str "C1"), ("title", .str "x"),
        ("createdAt", .str "NOW"), ("category", .str "project"), ("dueDate", .null)])
      "category" = some (.str "project") ∧
    jFieldD (JValue.obj [("id", .str "C1"), ("title", .str "x"),
        ("createdAt", .str "NOW"), ("category", .str "project"), ("dueDate", .null)])
      "dueDate" = some .null := by
  have h := C6_migration_defaulting (fun n => "g") "NOW"
  exact h.2 (.obj [("lists", .arr [.obj [("id", .str "L1")]]),
                   ("cards", .obj [("C1", .obj [("title", .str "x")])])])
    (.obj [("version", .num 2),
           ("lists", .arr [.obj [("id", .str "L1"), ("title", .str "Untitled"),
                                 ("cardIds", .arr [])]]),
           ("cards", .obj [("C1", .obj [("id", .str "C1"), ("title", .str "x"),
                                        ("createdAt", .str "NOW"),
                                        ("category", .str "project"),
                                        ("dueDate", .null)])])])
    [("C1", .obj [("id", .str "C1"), ("title", .str "x"),
                  ("createdAt", .str "NOW"), ("category", .str "project"),
                  ("dueDate", .null)])]
    h.1 rfl
    ("C1", .obj [("id", .str "C1"), ("title", .str "x"),
                 ("createdAt", .str "NOW"), ("category", .str "project"),
                 ("dueDate", .null)])
    (List.mem_singleton.mpr rfl)

/-! ## Claim C7 -/

/-- Counterexample to C7 as stated: `wit7Bad` has (truthy) `lists` and
`cards` fields, yet migration does not return a transformed board —
`old.lists.map` is called on the number 5 and the TypeError escapes
`migrateFromOldState`; nothing in the initialization chain
(src/app.js:32) catches it. -/
theorem C7_migration_crash_counterexample :
    jFieldD wit7Bad "lists" = some (.num 5) ∧
    jsTruthy (.num 5) = true ∧
    jFieldD wit7Bad "cards" = some (.obj []) ∧
    migrateFromOldState (fun n => "g") "NOW" wit7Bad
      = .error "TypeError: old.lists.map is not a function" :=
  ⟨rfl, rfl, rfl, rfl⟩

/-- C7 (amended): migration completes without an escaping error whenever
the legacy value is truthy, its `lists` field is an *array* of non-null
elements, and its `cards` field is truthy with non-null entry values
(returning the transformed board); but "has `lists` and `cards` fields of
any shape" is not enough — a truthy non-array `lists` (e.g. the number 5)
makes a TypeError escape to the uncaught handler, violating the
propagation policy. -/
theorem C7_migration_totality (fresh : Nat → String) (now : String) (old : JValue)
    (htr : jsTruthy old = true)
    (ls : List JValue) (hlists : jFieldD old "lists" = some (.arr ls))
    (hlsnn : ∀ l ∈ ls, l ≠ JValue.null)
    (cv : JValue) (hcards : jFieldD old "cards" = some cv)
    (hcvtr : jsTruthy cv = true)
    (hcsnn : ∀ kv ∈ jsEntries cv, kv.2 ≠ JValue.null) :
    ∃ out, migrateFromOldState fresh now old = .ok (some out) := by
  obtain ⟨lists2, hl2⟩ := @normLists_ok_of_nonnull fresh ls hlsnn 0
  obtain ⟨entries2, he2⟩ := @migCards_ok_of_nonnull now (jsEntries cv) hcsnn
  refine ⟨.obj [("version", .num 2), ("lists", .arr lists2),
    ("cards", .obj (buildObj entries2))], ?_⟩
  unfold migrateFromOldState
  rw [if_neg (by rw [htr]; simp)]
  simp only [hlists]
  rw [if_neg (by simp [jsTruthy])]
  simp only [hcards]
  rw [if_neg (by rw [hcvtr]; simp)]
  simp only [hl2, he2]

/-- Witness for C7 (amended): the well-formed legacy value of C6 migrates
successfully. -/
theorem C7_migration_totality_witness :
    ∃ out, migrateFromOldState (fun n => "g") "NOW"
      (.obj [("lists", .arr [.obj [("id", .str "L1")]]),
             ("cards", .obj [("C1", .obj [("title", .str "x")])])])
      = .ok (some out) :=
  C7_migration_totality (fun n => "g") "NOW"
    (.obj [("lists", .arr [.obj [("id", .str "L1")]]),
           ("cards", .obj [("C1", .obj [("title", .str "x")])])])
    rfl
    [.obj [("id", .str "L1")]] rfl (by simp)
    (.obj [("C1", .obj [("title", .str "x")])]) rfl rfl (by simp [jsEntries])

/-! ## Claim C2 -/

theorem normList_toJson (s : String) (l : BoardList) :
    normList s (BoardList.toJson l) = .ok (BoardList.toJson l) := rfl

theorem normCard_toJson {c : Card} (hcat : CATEGORY_KEYS.contains c.category = true)
    (now k : String) : normCard now k (Card.toJson c) = .ok (k, Card.toJson c) := by
  have hmem := (contains_iff_mem _ _).mp hcat
  cases hd : c.dueDate with
  | none => simp [normCard, Card.toJson, jFieldD, jPairsLookup, jNullish, hmem, hd]
  | some s => simp [normCard, Card.toJson, jFieldD, jPairsLookup, jNullish, hmem, hd]

theorem normLists_ok {fresh : Nat → String} {xs : List JValue}
    (h : ∀ l ∈ xs, ∀ s, normList s l = .ok l) :
    ∀ i, normLists fresh i xs = .ok xs := by
  induction xs with
  | nil => intro i; rfl
  | cons l rest ih =>
    intro i
    unfold normLists
    simp only [h l (List.mem_cons_self _ _) (fresh i),
      ih (fun x hx s => h x (List.mem_cons_of_mem _ hx) s) (i + 1)]

theorem normCards_ok {now : String} {es : List (String × JValue)}
    (h : ∀ kv ∈ es, normCard now kv.1 kv.2 = .ok kv) :
    normCards now es = .ok es := by
  induction es with
  | nil => rfl
  | cons e rest ih =>
    obtain ⟨k0, c0⟩ := e
    have h0 : normCard now k0 c0 = .ok (k0, c0) := h (k0, c0) (List.mem_cons_self _ _)
    unfold normCards
    simp only [h0, ih (fun x hx => h x (List.mem_cons_of_mem _ hx))]

theorem foldl_insert_eq_append (entries : List (String × α)) :
    ∀ acc : List (String × α),
      (∀ kv ∈ entries, assocLookup acc kv.1 = none) →
      (entries.map Prod.fst).Nodup →
      entries.foldl (fun a kv2 => assocInsert a kv2.1 kv2.2) acc = acc ++ entries := by
  induction entries with
  | nil =>
    intro acc _ _
    simp
  | cons e rest ih =>
    intro acc hdisj hnd
    obtain ⟨k0, v0⟩ := e
    simp only [List.map_cons, List.nodup_cons] at hnd
    have hlk : assocLookup acc k0 = none := hdisj (k0, v0) (List.mem_cons_self _ _)
    have hany : acc.any (fun kv => kv.1 == k0) = false := by
      rw [← assocLookup_isSome_iff_any, hlk]
      rfl
    have hins : assocInsert acc k0 v0 = acc ++ [(k0, v0)] := by
      unfold assocInsert
      rw [if_neg (fun ha => Bool.false_ne_true (hany ▸ ha))]
    simp only [List.foldl_cons, hins]
    rw [ih (acc ++ [(k0, v0)]) ?_ hnd.2]
    · simp
    · intro kv hkv
      rw [assocLookup_append, hdisj kv (List.mem_cons_of_mem _ hkv)]
      simp only
      rw [assocLookup_cons]
      rw [if_neg (fun he => hnd.1 (by rw [he]; exact List.mem_map_of_mem Prod.fst hkv)),
        assocLookup_nil]

theorem buildObj_eq_self {entries : List (String × JValue)}
    (hnd : (entries.map Prod.fst).Nodup) : buildObj entries = entries := by
  unfold buildObj
  rw [foldl_insert_eq_append entries [] (fun kv _ => rfl) hnd]
  simp

/-- C2: exporting a board that satisfies the data-model invariants
(version 2, unique card keys, categories in the fixed enumeration) and
re-importing the parsed document reproduces it exactly — normalizing the
JSON image of the board yields that same image: same version, same list
ids, titles and order, same `cardIds`, same card ids, titles, `createdAt`,
categories and due dates. -/
theorem C2_export_import_roundtrip (b : Board) (fresh : Nat → String) (now : String)
    (hv : b.version = 2)
    (hnd : (b.cards.map Prod.fst).Nodup)
    (hcat : ∀ kv ∈ b.cards, CATEGORY_KEYS.contains kv.2.category = true) :
    normalizeImportedState fresh now (Board.toJson b) = .ok (Board.toJson b) := by
  have hjson : Board.toJson b
      = .obj [("version", (.num 2 : JValue)),
              ("lists", .arr (b.lists.map BoardList.toJson)),
              ("cards", .obj (b.cards.map (fun kv => (kv.1, Card.toJson kv.2))))] := by
    unfold Board.toJson
    rw [hv]
    exact rfl
  have hl2 : normLists fresh 0 (b.lists.map BoardList.toJson)
      = .ok (b.lists.map BoardList.toJson) := by
    refine normLists_ok ?_ 0
    intro l hl s
    obtain ⟨l0, _, rfl⟩ := List.mem_map.mp hl
    exact normList_toJson s l0
  have hentries : normCards now (b.cards.map (fun kv => (kv.1, Card.toJson kv.2)))
      = .ok (b.cards.map (fun kv => (kv.1, Card.toJson kv.2))) := by
    refine normCards_ok ?_
    intro kv hkv
    obtain ⟨kv0, hkv0, rfl⟩ := List.mem_map.mp hkv
    exact normCard_toJson (hcat kv0 hkv0) now kv0.1
  have hndmap : ((b.cards.map (fun kv => (kv.1, Card.toJson kv.2))).map Prod.fst).Nodup := by
    rw [List.map_map]
    have he : (Prod.fst ∘ fun kv : String × Card => (kv.1, Card.toJson kv.2))
        = Prod.fst := funext (fun kv => rfl)
    rw [he]
    exact hnd
  have hbuild := buildObj_eq_self hndmap
  rw [hjson]
  have hfl : jFieldD (JValue.obj
      [("version", (.num 2 : JValue)),
       ("lists", .arr (b.lists.map BoardList.toJson)),
       ("cards", .obj (b.cards.map (fun kv => (kv.1, Card.toJson kv.2))))]) "lists"
      = some (.arr (b.lists.map BoardList.toJson)) := rfl
  have hfc : jFieldD (JValue.obj
      [("version", (.num 2 : JValue)),
       ("lists", .arr (b.lists.map BoardList.toJson)),
       ("cards", .obj (b.cards.map (fun kv => (kv.1, Card.toJson kv.2))))]) "cards"
      = some (.obj (b.cards.map (fun kv => (kv.1, Card.toJson kv.2)))) := rfl
  unfold normalizeImportedState
  rw [if_neg (by simp [jsTruthy, jsTypeofObject])]
  simp only [hfl, hfc, jsTruthy, jsTypeofObject, jsEntries, Bool.and_self, if_pos,
    hl2, hentries, hbuild]

/-- Witness for C2: the round trip at a concrete three-card, two-list
board. -/
theorem C2_export_import_roundtrip_witness :
    wit5B.version = 2 ∧
    (wit5B.cards.map Prod.fst).Nodup ∧
    normalizeImportedState (fun n => "g") "NOW" (Board.toJson wit5B)
      = .ok (Board.toJson wit5B) :=
  ⟨rfl, by decide,
    C2_export_import_roundtrip wit5B (fun n => "g") "NOW" rfl (by decide) (by decide)⟩
